import Mathlib

/-!
# Verification of the prores-go slice-decode core

A shallow embedding of the bit reader, adaptive codeword decoder,
DC/AC coefficient decoders, clamp, quantization-scale computation and
picture slice-tiling walk of the prores-go repository, together with
theorems settling the specification claims about them.

Go machine integers are modelled as `Nat`/`Int` with explicit wrapping
(`% 2^w`, `wrap16`, `wrap32`) where the Go code can overflow.  Byte
slices are `List Nat` with the well-formedness predicate `WfBytes`
(every element below 256).  Fallible operations return `Option`/product
results; Go runtime panics (out-of-range indexing) are modelled by a
dedicated result constructor, distinct from returned error values.
-/

/-! ## Bit-level model -/

/-- Byte `k` of a byte buffer (Go slice indexing; out of range is never
reached by the embedded operations on in-bounds states). -/
def byteAt (a : List Nat) (k : Nat) : Nat := a.getD k 0

/-- All bytes of the buffer are genuine bytes. -/
def WfBytes (a : List Nat) : Prop := ∀ b ∈ a, b < 256

instance (a : List Nat) : Decidable (WfBytes a) := List.decidableBAll _ a

/-- Bit `i` of the buffer, MSB-first within each byte (the bit order used
by the Go `Bitstream`). -/
def bitAt (a : List Nat) (i : Nat) : Bool := (byteAt a (i / 8)).testBit (7 - i % 8)

/-- The unsigned value of the `n` bits starting at bit `i`, MSB-first. -/
def bitsBE (a : List Nat) (i : Nat) : Nat → Nat
  | 0 => 0
  | n + 1 => 2 * bitsBE a i n + (if bitAt a (i + n) then 1 else 0)

/-- `leadingZerosAux w x` = number of zero bits of `x` from bit `w-1`
downwards before the first one bit (`w` when `x % 2^w = 0`).  This is
Go's `bits.LeadingZeros64` / `bits.LeadingZeros8` for `w = 64` / `8`. -/
def leadingZerosAux : Nat → Nat → Nat
  | 0, _ => 0
  | w + 1, x => if x.testBit w then 0 else leadingZerosAux w x + 1

/-- Truncation to a signed 16-bit value (Go `int16(...)` conversion). -/
def wrap16 (v : Int) : Int := (v + 2 ^ 15) % 2 ^ 16 - 2 ^ 15

/-- Truncation to a signed 32-bit value (Go `int32(...)` conversion). -/
def wrap32 (v : Int) : Int := (v + 2 ^ 31) % 2 ^ 32 - 2 ^ 31

/-- Two's-complement bitwise XOR on `Int` (Go `^` on signed integers;
`negSucc m` has the bit pattern of the complement of `m`). -/
def intXor : Int → Int → Int
  | .ofNat m, .ofNat n => .ofNat (m ^^^ n)
  | .ofNat m, .negSucc n => .negSucc (m ^^^ n)
  | .negSucc m, .ofNat n => .negSucc (m ^^^ n)
  | .negSucc m, .negSucc n => .ofNat (m ^^^ n)

/-- Arithmetic (sign-extending) right shift on `Int` (Go `>>` on signed
integers). -/
def intShr : Int → Nat → Int
  | .ofNat m, k => .ofNat (m >>> k)
  | .negSucc m, k => .negSucc (m >>> k)

/-! ## Bitstream (src/bitstream.go) -/

structure Bitstream where
  offset : Nat
  bytes : List Nat
deriving DecidableEq, Repr

/-- `RemainingBits` (as a mathematical integer; Go computes it in `int`). -/
def remainingBits (bs : Bitstream) : Int :=
  8 * (bs.bytes.length : Int) - bs.offset

/-- Big-endian 64-bit load of 8 bytes starting at byte `pos`
(Go: `bits.ReverseBytes64` of the little-endian unaligned load). -/
def beWord64 (a : List Nat) (pos : Nat) : Nat :=
  byteAt a pos * 2 ^ 56 + byteAt a (pos + 1) * 2 ^ 48 + byteAt a (pos + 2) * 2 ^ 40 +
    byteAt a (pos + 3) * 2 ^ 32 + byteAt a (pos + 4) * 2 ^ 24 + byteAt a (pos + 5) * 2 ^ 16 +
    byteAt a (pos + 6) * 2 ^ 8 + byteAt a (pos + 7)

/-- The byte-scanning loop of the slow path of `ReadSmallUnary`
(`for i := 1; i < len(buf); i++ { if buf[i] != 0 { ... } }`).
Go computes `LeadingZeros8(buf[i]) - skipped + i<<3`; we reassociate to
`LZ8(buf[i]) + 8*i - skipped`, equal over the integers and safe for
`Nat` subtraction because `8*i ≥ 8 > skipped`. -/
def smallUnaryLoop : List Nat → Nat → Nat → Option Nat
  | [], _, _ => none
  | b :: rest, skipped, i =>
    if b ≠ 0 then some (leadingZerosAux 8 b + 8 * i - skipped)
    else smallUnaryLoop rest skipped (i + 1)

/-- Outcome of `ReadSmallUnary`: `ok d bs` is a successful read (Go
returns `true` with `*dest = d`), `fail` is Go returning `false`, and
`oobSlice` is the Go runtime panic raised by slicing `Bytes[pos:]` when
the cursor's byte index exceeds the buffer length (`pos > len`, in
which case the slice's default high bound `len` is below `pos`) — a
crash, not a returned value.  That state is reachable through the
operation itself: at the buffer's end the fast path can consume 65
bits. -/
inductive SUResult where
  | ok (d : Nat) (bs : Bitstream)
  | fail
  | oobSlice
deriving DecidableEq, Repr

/-- `Bitstream.ReadSmallUnary`.  Go computes `l = len - pos` in `int`:
`l == 0` iff `len = pos`, `l >= 8` iff `pos + 8 ≤ len`; otherwise it
slices `Bytes[pos:]`, which panics when `len < pos`.  The fast path
shifts the 64-bit word left with wrap-around, hence the `% 2^64`. -/
def readSmallUnary (bs : Bitstream) : SUResult :=
  let pos := bs.offset / 8
  if bs.bytes.length = pos then .fail
  else if pos + 8 ≤ bs.bytes.length then
    let d := leadingZerosAux 64 ((beWord64 bs.bytes pos <<< (bs.offset % 8)) % 2 ^ 64)
    .ok d ⟨bs.offset + d + 1, bs.bytes⟩
  else if bs.bytes.length < pos then .oobSlice
  else
    let buf := bs.bytes.drop pos
    let skipped := bs.offset % 8
    let masked := byteAt buf 0 &&& (0xff >>> skipped)
    if masked ≠ 0 then
      let d := leadingZerosAux 8 ((masked <<< skipped) % 256)
      .ok d ⟨bs.offset + d + 1, bs.bytes⟩
    else
      match smallUnaryLoop buf.tail skipped 1 with
      | some d => .ok d ⟨bs.offset + d + 1, bs.bytes⟩
      | none => .fail

/-- `Bitstream.ReadBit` (`bs.Bytes[off>>3] & (1 << (7-off&7)) != 0`). -/
def readBit (bs : Bitstream) : Option (Bool × Bitstream) :=
  if remainingBits bs < 1 then none
  else some ((byteAt bs.bytes (bs.offset / 8) &&& (1 <<< (7 - bs.offset % 8)) != 0),
    ⟨bs.offset + 1, bs.bytes⟩)

/-- `Bitstream.ReadInt`.  `shiftRight = uint(8-endBit&7) & 7` is
`(8 - endBit % 8) % 8` since `8 - endBit&7 ∈ [1,8]`. -/
def readInt (nbits : Nat) (bs : Bitstream) : Option (Nat × Bitstream) :=
  if remainingBits bs < nbits ∨ 32 < nbits then none
  else if nbits = 0 then some (0, bs)
  else
    let pos := bs.offset / 8
    let b : Nat → Nat := fun j => byteAt bs.bytes (pos + j)
    let bitOffset := bs.offset % 8
    let endBit := bitOffset + nbits
    let shiftRight := (8 - endBit % 8) % 8
    let b0 := b 0 &&& (0xff >>> bitOffset)
    let v :=
      if 24 < endBit then ((b0 <<< 24) ||| (b 1 <<< 16) ||| (b 2 <<< 8) ||| b 3) >>> shiftRight
      else if 16 < endBit then ((b0 <<< 16) ||| (b 1 <<< 8) ||| b 2) >>> shiftRight
      else if 8 < endBit then ((b0 <<< 8) ||| b 1) >>> shiftRight
      else b0 >>> shiftRight
    some (v, ⟨bs.offset + nbits, bs.bytes⟩)

/-- `Bitstream.EndOfData` (the Go byte shift `buf[0] << uint(off&7)` is a
`byte` operation, hence wraps modulo 256). -/
def endOfData (bs : Bitstream) : Bool :=
  let remaining := remainingBits bs
  if 32 ≤ remaining then false
  else if remaining ≤ 0 then true
  else
    let b : Nat → Nat := fun j => byteAt bs.bytes (bs.offset / 8 + j)
    let b0 := (b 0 <<< (bs.offset % 8)) % 256
    if 24 < remaining then (b0 ||| b 1 ||| b 2 ||| b 3) == 0
    else if 16 < remaining then (b0 ||| b 1 ||| b 2) == 0
    else if 8 < remaining then (b0 ||| b 1) == 0
    else b0 == 0

/-! ## Adaptive codeword decoder (CodeParameters) -/

/-- `CodeParameters.LastRiceQ` (`p & 3`). -/
def lastRiceQ (p : Nat) : Nat := p &&& 3

/-- `CodeParameters.RiceOrder` (`p >> 5`). -/
def riceOrder (p : Nat) : Nat := p >>> 5

/-- `CodeParameters.ExpOrder` (`(p >> 2) & 7`). -/
def expOrder (p : Nat) : Nat := (p >>> 2) &&& 7

/-- The per-descriptor constant the `init` function precomputes into the
256-entry table `expGolombSubexprs`:
`-(1 << ExpOrder(p)) + ((LastRiceQ(p)+1) << RiceOrder(p))`. -/
def expGolombSubexprs (p : Nat) : Int :=
  -(((1 <<< expOrder p : Nat) : Int)) + (((lastRiceQ p + 1) <<< riceOrder p : Nat) : Int)

/-- Outcome of `CodeParameters.Decode`: `ok v bs` a decoded codeword
value, `fail` the returned error value, `oobSlice` the propagated
`ReadSmallUnary` slice panic. -/
inductive DecodeResult where
  | ok (v : Int) (bs : Bitstream)
  | fail
  | oobSlice
deriving DecidableEq, Repr

/-- `CodeParameters.Decode`.  The exponential-Golomb bit count
`bits = k - lastRiceQ + (q<<1) - q - 1` is computed in `Int` (Go `int`)
and is nonnegative in that branch because `q > lastRiceQ`
(`decode_exp_bits_nonneg` below), so the `toNat` is exact. -/
def decode (p : Nat) (bs : Bitstream) : DecodeResult :=
  match readSmallUnary bs with
  | .fail => .fail
  | .oobSlice => .oobSlice
  | .ok q bs1 =>
    if lastRiceQ p < q then
      let k := expOrder p
      let w : Int := (k : Int) - lastRiceQ p + ((q <<< 1 : Nat) : Int) - q - 1
      match readInt w.toNat bs1 with
      | none => .fail
      | some (n, bs2) => .ok ((((1 <<< w.toNat) ||| n : Nat) : Int) + expGolombSubexprs p) bs2
    else if riceOrder p ≠ 0 then
      match readInt (riceOrder p) bs1 with
      | none => .fail
      | some (r, bs2) => .ok (((q <<< riceOrder p) + r : Nat) : Int) bs2
    else .ok (q : Int) bs1

/-! ## Coefficient decoding (DC and AC) -/

/-- A slice's coefficient scratchpad `[MaxBlocksPerSlice][64]int16`,
modelled as a total map from (block, coefficient) to the stored value. -/
def DestMap := Nat → Nat → Int

/-- Writing `dest[b][i] = v`. -/
def updateDest (d : DestMap) (b i : Nat) (v : Int) : DestMap :=
  fun b2 i2 => if b2 = b ∧ i2 = i then v else d b2 i2

def dcCodeParams : List Nat := [0x04, 0x28, 0x28, 0x4D, 0x4D, 0x70, 0x70]

def acRunCodeParams : List Nat :=
  [0x06, 0x06, 0x05, 0x05, 0x04, 0x29, 0x29, 0x29, 0x29, 0x28, 0x28, 0x28, 0x28, 0x28, 0x28, 0x4C]

def acLevelCodeParams : List Nat :=
  [0x04, 0x0a, 0x05, 0x06, 0x04, 0x28, 0x28, 0x28, 0x28, 0x4c]

/-- Outcome of `decodeDCCoefficients`: `ok` a nil error, `err` a
returned error value, `oobSlice` the propagated `ReadSmallUnary` slice
panic. -/
inductive DCResult where
  | ok
  | err (msg : String)
  | oobSlice
deriving DecidableEq, Repr

/-- The differential loop of `decodeDCCoefficients`
(`for i := 1; i < numberOfBlocks; i++`, modelled with the countdown
`n = numberOfBlocks - i`).  The loop variable `code` only ever holds
decoded codeword values, which are nonnegative (`decode_nonneg` below),
so it is carried as a `Nat`. -/
def dcLoop (numberOfBlocks : Nat) : Nat → Nat → Bitstream → Nat → Int → Int → DestMap →
    DCResult × DestMap × Bitstream
  | 0, _, bs, _, _, _, dest => (.ok, dest, bs)
  | n + 1, i, bs, code, sign, prev, dest =>
    let params := if code < 7 then dcCodeParams.getD code 0 else dcCodeParams.getD 6 0
    match decode params bs with
    | .fail => (.err "unable to decode codeword", dest, bs)
    | .oobSlice => (.oobSlice, dest, bs)
    | .ok c bs1 =>
      let code1 := c.toNat
      let sign1 := if code1 ≠ 0 then intXor sign (-((code1 : Int) % 2)) else 0
      let prev1 := prev + intXor (((code1 + 1) >>> 1 : Nat) : Int) sign1 - sign1
      dcLoop numberOfBlocks n (i + 1) bs1 code1 sign1 prev1 (updateDest dest i 0 (wrap16 prev1))

/-- `decodeDCCoefficients`.  The first codeword is decoded under the
fixed descriptor `0xB8` and unmapped via `(code >> 1) ^ -(code & 1)`
(`& 1` is the low bit, i.e. `% 2`); the loop then starts with
`code = 5`, `sign = 0`. -/
def decodeDCCoefficients (bs : Bitstream) (dest : DestMap) (numberOfBlocks : Nat) :
    DCResult × DestMap × Bitstream :=
  match decode 0xb8 bs with
  | .fail => (.err "unable to decode initial codeword", dest, bs)
  | .oobSlice => (.oobSlice, dest, bs)
  | .ok c bs1 =>
    let prev := intXor (intShr c 1) (-(c % 2))
    dcLoop numberOfBlocks (numberOfBlocks - 1) 1 bs1 5 0 prev (updateDest dest 0 0 (wrap16 prev))

/-- Outcome of AC decoding.  `err` models the error values returned with
`fmt.Errorf`; `oobGet` models the Go runtime panic raised by the
unguarded slice access `scanOrder[pos>>log2BlockCount]` when the index
is out of range — a crash, not a returned error value; `oobSlice` is
the propagated `ReadSmallUnary` slice panic. -/
inductive ACResult
  | ok
  | err (msg : String)
  | oobGet
  | oobSlice
  | fuelOut
deriving DecidableEq, Repr

/-- The `for !bs.EndOfData()` loop of `decodeACCoefficients`, with an
explicit fuel parameter.  Every iteration consumes at least one bit, so
fuel `8 * len(bytes) + 1` never runs out (`acLoop_no_fuelOut` below);
`fuelOut` is unreachable from `decodeACCoefficients`. -/
def acLoop (numberOfBlocks log2B blockMask : Nat) (scanOrder : List Nat) :
    Nat → Bitstream → Nat → Nat → Nat → DestMap → ACResult × DestMap × Bitstream
  | 0, bs, _, _, _, dest => (.fuelOut, dest, bs)
  | fuel + 1, bs, run, level, pos, dest =>
    if endOfData bs then (.ok, dest, bs)
    else
      let runParams := if run < 16 then acRunCodeParams.getD run 0 else acRunCodeParams.getD 15 0
      match decode runParams bs with
      | .fail => (.err "unable to decode run bits", dest, bs)
      | .oobSlice => (.oobSlice, dest, bs)
      | .ok rv bs1 =>
        let run1 := rv.toNat
        let pos1 := pos + run1 + 1
        let levelParams :=
          if level < 10 then acLevelCodeParams.getD level 0 else acLevelCodeParams.getD 9 0
        match decode levelParams bs1 with
        | .fail => (.err "unable to decode level bits", dest, bs1)
        | .oobSlice => (.oobSlice, dest, bs1)
        | .ok lv bs2 =>
          let level1 := lv.toNat + 1
          let block := pos1 &&& blockMask
          if numberOfBlocks ≤ block then (.err "invalid coefficient position", dest, bs2)
          else
            match scanOrder.get? (pos1 >>> log2B) with
            | none => (.oobGet, dest, bs2)
            | some i =>
              match readBit bs2 with
              | none => (.err "unable to decode sign", dest, bs2)
              | some (sign, bs3) =>
                let dest1 := updateDest dest block i
                  (if sign then wrap16 (-(level1 : Int)) else wrap16 ((level1 : Int)))
                acLoop numberOfBlocks log2B blockMask scanOrder fuel bs3 run1 level1 pos1 dest1

/-- `decodeACCoefficients`.  `log2BlockCount = 31 - LeadingZeros32(uint32(B))`,
`blockMask = B - 1`, starting state `run = 4`, `level = 2`, `pos = B - 1`. -/
def decodeACCoefficients (bs : Bitstream) (dest : DestMap) (numberOfBlocks : Nat)
    (scanOrder : List Nat) : ACResult × DestMap × Bitstream :=
  let log2B := 31 - leadingZerosAux 32 (numberOfBlocks % 2 ^ 32)
  acLoop numberOfBlocks log2B (numberOfBlocks - 1) scanOrder (8 * bs.bytes.length + 1) bs 4 2
    (numberOfBlocks - 1) dest

/-! ## Clamp, quantization scale, scan orders -/

/-- `clamp10bit` (src: `if uint32(n)&0xfffffc00 != 0 { return uint16((-n)>>31) & 0x3ff };
return uint16(n)`).  The argument is an `int32` value; `-n` wraps in 32
bits, `>>` is the arithmetic shift, `uint16(...)` truncates mod `2^16`. -/
def clamp10bit (n : Int) : Nat :=
  if (n % 2 ^ 32).toNat &&& 0xfffffc00 ≠ 0 then
    (intShr (wrap32 (-n)) 31 % 2 ^ 16).toNat &&& 0x3ff
  else (n % 2 ^ 16).toNat

/-- The `qScale` computation of `SliceDecoder.DecodeSlice`:
`qScale := int32(QI); if QI >= 129 { qScale = 128 + 4*int32(QI-128) }`. -/
def qScaleOf (quantizationIndex : Nat) : Int :=
  if 129 ≤ quantizationIndex then 128 + 4 * ((quantizationIndex : Int) - 128)
  else (quantizationIndex : Int)

/-- One entry of the scaled quantization matrix:
`scaledMatrix[i] = int32(matrix[i]) * qScale` (a 32-bit product). -/
def scaledMatrixEntry (m qs : Int) : Int := wrap32 (m * qs)

def ProgressiveScanOrder : List Nat :=
  [0, 1, 8, 9, 2, 3, 10, 11,
   16, 17, 24, 25, 18, 19, 26, 27,
   4, 5, 12, 20, 13, 6, 7, 14,
   21, 28, 29, 22, 15, 23, 30, 31,
   32, 33, 40, 48, 41, 34, 35, 42,
   49, 56, 57, 50, 43, 36, 37, 44,
   51, 58, 59, 52, 45, 38, 39, 46,
   53, 60, 61, 54, 47, 55, 62, 63]

def InterlacedScanOrder : List Nat :=
  [0, 8, 1, 9, 16, 24, 17, 25,
   2, 10, 3, 11, 18, 26, 19, 27,
   32, 40, 33, 34, 41, 48, 56, 49,
   42, 35, 43, 50, 57, 58, 51, 59,
   4, 12, 5, 6, 13, 20, 28, 21,
   14, 7, 15, 22, 29, 36, 44, 37,
   30, 23, 31, 38, 45, 52, 60, 53,
   46, 39, 47, 54, 61, 62, 55, 63]

/-! ## Picture slice tiling (DecodePicture) -/

/-- A slice's target rectangle `[x, x+w) × [y, y+h)`. -/
structure SliceRect where
  x : Nat
  y : Nat
  w : Nat
  h : Nat
deriving DecidableEq, Repr

/-- Membership of the pixel `(px, py)` in a slice rectangle. -/
def inRect (r : SliceRect) (px py : Nat) : Prop :=
  r.x ≤ px ∧ px < r.x + r.w ∧ r.y ≤ py ∧ py < r.y + r.h

instance (r : SliceRect) (px py : Nat) : Decidable (inRect r px py) := by
  unfold inRect; infer_instance

/-- The right-edge halving loop of `DecodePicture`:
`for sliceWidth > MacroblockWidth && x+sliceWidth > frameHeader.Width
 { sliceWidth >>= 1 }`. -/
def halveW (W x : Nat) (w : Nat) : Nat :=
  if 16 < w ∧ W < x + w then halveW W x (w / 2) else w
termination_by w
decreasing_by exact Nat.div_lt_self (by omega) (by omega)

/-- The slice-rectangle assignment walk of `DecodePicture`: slice `i`
gets the rectangle at the cursor, then `x += sliceWidth; if x >= Width
{ x = 0; y += sliceHeight }`.  `n` is the number of slices dispatched. -/
def sliceWalk (W sliceW sliceH : Nat) : Nat → Nat → Nat → List SliceRect
  | 0, _, _ => []
  | n + 1, x, y =>
    let w := halveW W x sliceW
    ⟨x, y, w, sliceH⟩ ::
      (if W ≤ x + w then sliceWalk W sliceW sliceH n 0 (y + sliceH)
       else sliceWalk W sliceW sliceH n (x + w) y)

/-- The number of slices the walk places on one row starting at `x`
("tiles per row" when started at `x = 0`).  The `w = 0` disjunct is dead
for the real slice widths (`sliceW = 2^wf · 16 ≥ 16`); it only makes the
recursion total. -/
def rowCount (W sw : Nat) (x : Nat) : Nat :=
  if W ≤ x ∨ halveW W x sw = 0 then 0
  else 1 + rowCount W sw (x + halveW W x sw)
termination_by W - x
decreasing_by
  rename_i h
  push_neg at h
  omega

/-! ## Basic toolkit lemmas -/

theorem byteAt_lt {a : List Nat} (wf : WfBytes a) (k : Nat) : byteAt a k < 256 := by
  unfold byteAt
  rcases Nat.lt_or_ge k a.length with h | h
  · rw [List.getD_eq_getElem a 0 h]
    exact wf _ (List.getElem_mem h)
  · rw [List.getD_eq_default _ _ h]; omega

theorem eq_zero_iff_testBit_false {x : Nat} : x = 0 ↔ ∀ i, x.testBit i = false := by
  constructor
  · rintro rfl i; exact Nat.zero_testBit i
  · intro h; exact Nat.eq_of_testBit_eq fun i => (h i).trans (Nat.zero_testBit i).symm

theorem testBit_false_of_lt {x j i : Nat} (h : x < 2 ^ j) (hj : j ≤ i) :
    x.testBit i = false :=
  Nat.testBit_lt_two_pow (lt_of_lt_of_le h (Nat.pow_le_pow_right (by omega) hj))

theorem lt_two_pow_of_testBit_false {x n : Nat} (h : ∀ i, n ≤ i → x.testBit i = false) :
    x < 2 ^ n := by
  have hz : x >>> n = 0 := by
    rw [eq_zero_iff_testBit_false]
    intro i
    rw [Nat.testBit_shiftRight]
    exact h _ (by omega)
  rw [Nat.shiftRight_eq_div_pow] at hz
  exact (Nat.div_eq_zero_iff (Nat.two_pow_pos n)).mp hz

theorem wrap32_eq_self {v : Int} (h1 : -(2 ^ 31) ≤ v) (h2 : v < 2 ^ 31) : wrap32 v = v := by
  unfold wrap32
  have : (v + 2 ^ 31) % 2 ^ 32 = v + 2 ^ 31 := Int.emod_eq_of_lt (by omega) (by omega)
  omega

theorem wrap16_eq_self {v : Int} (h1 : -(2 ^ 15) ≤ v) (h2 : v < 2 ^ 15) : wrap16 v = v := by
  unfold wrap16
  have : (v + 2 ^ 15) % 2 ^ 16 = v + 2 ^ 15 := Int.emod_eq_of_lt (by omega) (by omega)
  omega

theorem intShr_nonneg_31 {a : Int} (h0 : 0 ≤ a) (h1 : a < 2 ^ 31) : intShr a 31 = 0 := by
  rcases a with m | m
  · have hm : m < 2 ^ 31 := by
      rw [Int.ofNat_eq_coe] at h1
      exact_mod_cast h1
    show Int.ofNat (m >>> 31) = 0
    rw [Nat.shiftRight_eq_div_pow, Nat.div_eq_of_lt hm]
    rfl
  · exact absurd h0 (Int.not_le.mpr (Int.negSucc_lt_zero m))

theorem intShr_neg_31 {a : Int} (h0 : -(2 ^ 31) ≤ a) (h1 : a < 0) : intShr a 31 = -1 := by
  rcases a with m | m
  · refine absurd h1 (Int.not_lt.mpr ?_)
    rw [Int.ofNat_eq_coe]
    exact Int.ofNat_nonneg m
  · have hm : m < 2 ^ 31 := by
      have := Int.negSucc_coe m
      omega
    show Int.negSucc (m >>> 31) = -1
    rw [Nat.shiftRight_eq_div_pow, Nat.div_eq_of_lt hm]
    rfl

theorem and_fffffc00_eq_zero_iff {x : Nat} (hx : x < 2 ^ 32) :
    x &&& 0xfffffc00 = 0 ↔ x < 1024 := by
  have hm : (0xfffffc00 : Nat) = (2 ^ 22 - 1) <<< 10 := by
    rw [Nat.shiftLeft_eq]
    norm_num
  constructor
  · intro h
    have hbits : ∀ i, 10 ≤ i → x.testBit i = false := by
      intro i h10
      rcases Nat.lt_or_ge i 32 with h32 | h32
      · by_contra hb
        rw [Bool.not_eq_false] at hb
        have hcontra : (x &&& 0xfffffc00).testBit i = true := by
          rw [Nat.testBit_land, hb, hm, Nat.testBit_shiftLeft, Nat.testBit_two_pow_sub_one]
          simp only [Bool.true_and, ge_iff_le, Bool.and_eq_true, decide_eq_true_eq]
          omega
        rw [h, Nat.zero_testBit] at hcontra
        exact Bool.false_ne_true hcontra
      · exact testBit_false_of_lt hx h32
    have : x < 2 ^ 10 := lt_two_pow_of_testBit_false hbits
    omega
  · intro h
    rw [eq_zero_iff_testBit_false]
    intro i
    rw [Nat.testBit_land]
    rcases Nat.lt_or_ge i 10 with hi | hi
    · have : (0xfffffc00 : Nat).testBit i = false := by
        rw [hm, Nat.testBit_shiftLeft]
        simp only [ge_iff_le, Bool.and_eq_false_imp, decide_eq_true_eq]
        omega
      rw [this, Bool.and_false]
    · rw [testBit_false_of_lt (show x < 2 ^ 10 by omega) hi, Bool.false_and]

/-! ## Claim C1: clamp10bit -/

theorem clamp10bit_in_range (n : Int) (h0 : 0 ≤ n) (h1 : n ≤ 1023) :
    clamp10bit n = n.toNat := by
  unfold clamp10bit
  have hx : n % 2 ^ 32 = n := Int.emod_eq_of_lt h0 (by omega)
  rw [hx, if_neg]
  · congr 1
    exact Int.emod_eq_of_lt h0 (by omega)
  · intro hne
    exact hne ((and_fffffc00_eq_zero_iff (by omega)).mpr (by omega))

theorem clamp10bit_high (n : Int) (h0 : 1023 < n) (h1 : n < 2 ^ 31) :
    clamp10bit n = 1023 := by
  unfold clamp10bit
  have hx : n % 2 ^ 32 = n := Int.emod_eq_of_lt (by omega) (by omega)
  rw [hx, if_pos]
  · rw [wrap32_eq_self (by omega) (by omega), intShr_neg_31 (by omega) (by omega)]
    decide
  · intro hzero
    have := (and_fffffc00_eq_zero_iff (by omega)).mp hzero
    omega

theorem clamp10bit_low (n : Int) (h0 : -(2 ^ 31) < n) (h1 : n < 0) :
    clamp10bit n = 0 := by
  unfold clamp10bit
  have hx : n % 2 ^ 32 = n + 2 ^ 32 := by omega
  rw [hx, if_pos]
  · rw [wrap32_eq_self (by omega) (by omega), intShr_nonneg_31 (by omega) (by omega)]
    decide
  · intro hzero
    have := (and_fffffc00_eq_zero_iff (by omega)).mp hzero
    omega

/-- C1 counterexample: the claim "clamp10bit(n) returns 0 when n < 0"
fails at the 32-bit minimum `n = -2^31`: `-n` wraps back to `-2^31`,
whose arithmetic shift is `-1`, so the code returns 1023, not 0. -/
theorem clamp10bit_claim_false_at_int32_min :
    clamp10bit (-2147483648) = 1023 ∧ clamp10bit (-2147483648) ≠ 0 := by
  constructor <;> decide

/-- C1 (amended): for every 32-bit signed integer `n`, `clamp10bit n`
returns 0 when `-2^31 < n < 0`, returns 1023 when `n > 1023` and also
when `n = -2^31`, and returns `n` when `0 ≤ n ≤ 1023`; consequently it
is always in `[0, 1023]` and equals `n` iff `n ∈ [0, 1023]`. -/
theorem clamp10bit_amended (n : Int) (hlo : -(2 ^ 31) ≤ n) (hhi : n < 2 ^ 31) :
    (-(2 ^ 31) < n → n < 0 → clamp10bit n = 0) ∧
    (1023 < n → clamp10bit n = 1023) ∧
    (n = -(2 ^ 31) → clamp10bit n = 1023) ∧
    (0 ≤ n → n ≤ 1023 → (clamp10bit n : Int) = n) ∧
    clamp10bit n ≤ 1023 ∧
    ((clamp10bit n : Int) = n ↔ 0 ≤ n ∧ n ≤ 1023) := by
  have hmin : n = -(2 ^ 31) → clamp10bit n = 1023 := by
    rintro rfl
    decide
  have hid : 0 ≤ n → n ≤ 1023 → (clamp10bit n : Int) = n := by
    intro h0 h1
    rw [clamp10bit_in_range n h0 h1]
    omega
  have hbound : clamp10bit n ≤ 1023 := by
    rcases eq_or_lt_of_le hlo with heq | hgt
    · omega
    · rcases Int.lt_or_le n 0 with hneg | hpos
      · rw [clamp10bit_low n hgt hneg]
        omega
      · rcases Int.le_or_lt n 1023 with hsm | hbig
        · have := clamp10bit_in_range n hpos hsm
          omega
        · rw [clamp10bit_high n hbig hhi]
  refine ⟨clamp10bit_low n, fun h => clamp10bit_high n h hhi, hmin, hid, hbound, ?_, ?_⟩
  · intro he
    rcases Int.lt_or_le n 0 with hneg | hpos
    · exfalso
      rcases eq_or_lt_of_le hlo with heq | hgt
      · rw [hmin heq.symm] at he
        omega
      · rw [clamp10bit_low n hgt hneg] at he
        omega
    · rcases Int.le_or_lt n 1023 with hsm | hbig
      · exact ⟨hpos, hsm⟩
      · exfalso
        rw [clamp10bit_high n hbig hhi] at he
        omega
  · rintro ⟨h0, h1⟩
    exact hid h0 h1

/-! ## Claim C8: quantization scale -/

/-- C8: for every slice quantization index in 1..224, the computed
qScale is `QI` below 128 and `128 + 4·(QI − 128)` from 128 up (the two
agree at 128), with the stated concrete values, and every scaled matrix
entry is exactly `qMatrix[i] · qScale` (no 32-bit wrap-around). -/
theorem qScale_spec :
    (∀ qi : Nat, 1 ≤ qi → qi ≤ 224 →
      (qScaleOf qi = if qi < 128 then (qi : Int) else 128 + 4 * ((qi : Int) - 128)) ∧
      ∀ m : Int, -128 ≤ m → m ≤ 127 →
        scaledMatrixEntry m (qScaleOf qi) = m * qScaleOf qi) ∧
    qScaleOf 1 = 1 ∧ qScaleOf 128 = 128 ∧ qScaleOf 129 = 132 ∧ qScaleOf 224 = 512 := by
  have hval : ∀ qi : Nat, 1 ≤ qi → qi ≤ 224 →
      qScaleOf qi = if qi < 128 then (qi : Int) else 128 + 4 * ((qi : Int) - 128) := by
    intro qi h1 h2
    unfold qScaleOf
    rcases Nat.lt_or_ge qi 129 with h | h
    · rw [if_neg (by omega)]
      rcases Nat.lt_or_ge qi 128 with h3 | h3
      · rw [if_pos h3]
      · rw [if_neg (by omega)]
        have : qi = 128 := by omega
        subst this
        norm_num
    · rw [if_pos h, if_neg (by omega)]
  have hrange : ∀ qi : Nat, 1 ≤ qi → qi ≤ 224 → 1 ≤ qScaleOf qi ∧ qScaleOf qi ≤ 512 := by
    intro qi h1 h2
    unfold qScaleOf
    rcases Nat.lt_or_ge qi 129 with h | h
    · rw [if_neg (by omega)]
      omega
    · rw [if_pos h]
      omega
  refine ⟨fun qi h1 h2 => ⟨hval qi h1 h2, fun m hm1 hm2 => ?_⟩, by decide, by decide,
    by decide, by decide⟩
  obtain ⟨hq1, hq2⟩ := hrange qi h1 h2
  unfold scaledMatrixEntry
  apply wrap32_eq_self
  · nlinarith
  · nlinarith

/-- Witness for C8 at `QI = 129` and matrix entry `-128`. -/
theorem qScale_spec_witness :
    (qScaleOf 129 = if (129 : Nat) < 128 then ((129 : Nat) : Int)
      else 128 + 4 * (((129 : Nat) : Int) - 128)) ∧
    scaledMatrixEntry (-128) (qScaleOf 129) = -128 * qScaleOf 129 :=
  ⟨(qScale_spec.1 129 (by decide) (by decide)).1,
   (qScale_spec.1 129 (by decide) (by decide)).2 (-128) (by decide) (by decide)⟩

/-! ## Leading-zero count lemmas -/

theorem leadingZerosAux_eq : ∀ (w : Nat) {x z : Nat}, z < w →
    (∀ j, j < z → x.testBit (w - 1 - j) = false) →
    x.testBit (w - 1 - z) = true → leadingZerosAux w x = z := by
  intro w
  induction w with
  | zero => intro x z hz; omega
  | succ w ih =>
    intro x z hz h0 h1
    unfold leadingZerosAux
    rcases hb : x.testBit w with _ | _
    · rw [if_neg (by simp)]
      rcases z with _ | z
      · rw [show w + 1 - 1 - 0 = w by omega, hb] at h1
        exact absurd h1 (by simp)
      · have h0a : ∀ j, j < z → x.testBit (w - 1 - j) = false := by
          intro j hj
          have := h0 (j + 1) (by omega)
          rwa [show w + 1 - 1 - (j + 1) = w - 1 - j by omega] at this
        have h1a : x.testBit (w - 1 - z) = true := by
          rwa [show w + 1 - 1 - (z + 1) = w - 1 - z by omega] at h1
        rw [ih (by omega) h0a h1a]
    · rw [if_pos rfl]
      rcases Nat.eq_zero_or_pos z with hz0 | hz0
      · omega
      · have := h0 0 hz0
        rw [show w + 1 - 1 - 0 = w by omega, hb] at this
        exact absurd this (by simp)

theorem leadingZerosAux_eq_width : ∀ (w : Nat) {x : Nat},
    (∀ i, i < w → x.testBit i = false) → leadingZerosAux w x = w := by
  intro w
  induction w with
  | zero => intro x _; rfl
  | succ w ih =>
    intro x h0
    unfold leadingZerosAux
    rw [h0 w (by omega), if_neg (by simp), ih (fun i hi => h0 i (by omega))]

theorem left_le_lor (a b : Nat) : a ≤ a ||| b := by
  have habs : a &&& (a ||| b) = a := by
    apply Nat.eq_of_testBit_eq
    intro i
    rw [Nat.testBit_land, Nat.testBit_lor]
    cases a.testBit i <;> cases b.testBit i <;> rfl
  calc a = a &&& (a ||| b) := habs.symm
    _ ≤ a ||| b := Nat.and_le_right

/-- The exponential-Golomb bit count computed by `decode` is nonnegative
in the branch that uses it (`q > lastRiceQ p`), so modelling Go's `int`
by `Int.toNat` there is exact. -/
theorem decode_exp_bits_nonneg {p q : Nat} (hq : lastRiceQ p < q) :
    0 ≤ (expOrder p : Int) - lastRiceQ p + ((q <<< 1 : Nat) : Int) - q - 1 := by
  rw [Nat.shiftLeft_eq]
  push_cast
  omega

/-- Every successfully decoded codeword value is nonnegative (so the Go
`int` loop variables fed back into the parameter tables are natural
numbers). -/
theorem decode_nonneg {p : Nat} {bs : Bitstream} {v : Int} {bs2 : Bitstream}
    (h : decode p bs = .ok v bs2) : 0 ≤ v := by
  unfold decode at h
  rcases hru : readSmallUnary bs with ⟨q, bs1⟩ | _ | _ <;> rw [hru] at h <;> dsimp only at h
  rotate_left
  · cases h
  · cases h
  · split at h
    · rename_i hq
      rcases hri : readInt ((expOrder p : Int) - (lastRiceQ p : Int) +
          ((q <<< 1 : Nat) : Int) - (q : Int) - 1).toNat bs1 with _ | ⟨n, bs3⟩ <;>
        rw [hri] at h <;> dsimp only at h
      · cases h
      · simp only [DecodeResult.ok.injEq] at h
        obtain ⟨rfl, rfl⟩ := h
        have hw : ((expOrder p : Int) - (lastRiceQ p : Int) + ((q <<< 1 : Nat) : Int) -
            (q : Int) - 1).toNat = expOrder p + q - lastRiceQ p - 1 := by
          rw [Nat.shiftLeft_eq]
          push_cast
          omega
        rw [hw]
        have hle : (1 <<< expOrder p : Nat) ≤
            ((1 <<< (expOrder p + q - lastRiceQ p - 1)) ||| n : Nat) := by
          calc (1 <<< expOrder p : Nat) ≤ 1 <<< (expOrder p + q - lastRiceQ p - 1) := by
                rw [Nat.shiftLeft_eq, Nat.shiftLeft_eq, Nat.one_mul, Nat.one_mul]
                exact Nat.pow_le_pow_right (by omega) (by omega)
            _ ≤ _ := left_le_lor _ _
        unfold expGolombSubexprs
        have hcast := Int.ofNat_le.mpr hle
        have hd := Int.ofNat_nonneg (((lastRiceQ p + 1) <<< riceOrder p : Nat))
        omega
    · split at h
      · rcases hri : readInt (riceOrder p) bs1 with _ | ⟨r, bs3⟩ <;>
          rw [hri] at h <;> dsimp only at h
        · cases h
        · simp only [DecodeResult.ok.injEq] at h
          obtain ⟨rfl, rfl⟩ := h
          positivity
      · simp only [DecodeResult.ok.injEq] at h
        obtain ⟨rfl, rfl⟩ := h
        positivity

/-! ## Claim C5: scan-index overflow is an out-of-bounds access, not an error value -/

/-- C5 failing input: decoding the AC region `02 04 00 00` with one
block decodes `run = 63` (so `pos = 64` and `pos >> log2B = 64 > 63`),
and the decode ends in the unguarded out-of-range access
`scanOrder[64]` — a Go runtime panic — because `pos & blockMask` is
always `< numberOfBlocks` for a power-of-two block count, so the
`block >= numberOfBlocks` guard can never fire.  The claim that such a
state yields a returned error value aborting the slice is false. -/
theorem ac_scan_overflow_is_oob_access :
    (decodeACCoefficients ⟨0, [0x02, 0x04, 0, 0]⟩ (fun _ _ => 0) 1 ProgressiveScanOrder).1 =
      ACResult.oobGet ∧ ACResult.oobGet ≠ ACResult.ok ∧
      ∀ msg, ACResult.oobGet ≠ ACResult.err msg := by
  refine ⟨by decide, by decide, fun msg h => by cases h⟩

/-! ## Claim C10: AC decoding never overwrites a DC coefficient -/

theorem scan_tables_nonzero_off_origin :
    ∀ j, 1 ≤ j → j < 64 →
      ProgressiveScanOrder.getD j 0 ≠ 0 ∧ InterlacedScanOrder.getD j 0 ≠ 0 := by
  decide

theorem acLoop_preserves_dc_row (B k blockMask : Nat) (scan : List Nat)
    (hscan : ∀ j, 1 ≤ j → j < scan.length → scan.getD j 0 ≠ 0) :
    ∀ (fuel : Nat) (bs : Bitstream) (run level pos : Nat) (dest : DestMap),
      2 ^ k ≤ pos + 1 →
      ∀ b, (acLoop B k blockMask scan fuel bs run level pos dest).2.1 b 0 = dest b 0 := by
  intro fuel
  induction fuel with
  | zero => intro bs run level pos dest hpos b; rfl
  | succ fuel ih =>
    intro bs run level pos dest hpos b
    unfold acLoop
    by_cases hend : endOfData bs
    · rw [if_pos hend]
    · rw [if_neg hend]
      dsimp only
      split
      · rfl
      · rfl
      · rename_i rv bs1 hrun
        split
        · rfl
        · rfl
        · rename_i lv bs2 hlev
          split
          · rfl
          · split
            · rfl
            · rename_i i hget
              split
              · rfl
              · rename_i sign bs3 hbit
                rw [ih bs3 rv.toNat (lv.toNat + 1) (pos + rv.toNat + 1) _ (by omega) b]
                have hidx1 : 1 ≤ (pos + rv.toNat + 1) >>> k := by
                  rw [Nat.shiftRight_eq_div_pow]
                  exact (Nat.one_le_div_iff (Nat.two_pow_pos k)).mpr (by omega)
                have hilen : (pos + rv.toNat + 1) >>> k < scan.length :=
                  List.get?_eq_some.mp hget |>.1
                have hi : scan.getD ((pos + rv.toNat + 1) >>> k) 0 = i := by
                  rw [List.getD_eq_getElem _ _ hilen]
                  exact (List.get?_eq_some.mp hget).2
                have hne : i ≠ 0 := by
                  rw [← hi]
                  exact hscan _ hidx1 hilen
                unfold updateDest
                rw [if_neg (by tauto)]

theorem log2_of_pow (k : Nat) (hk : k ≤ 31) :
    31 - leadingZerosAux 32 (2 ^ k % 2 ^ 32) = k := by
  have hlt : (2 : Nat) ^ k < 2 ^ 32 := Nat.pow_lt_pow_right (by omega) (by omega)
  rw [Nat.mod_eq_of_lt hlt]
  have hz : leadingZerosAux 32 (2 ^ k) = 31 - k := by
    apply leadingZerosAux_eq 32 (by omega)
    · intro j hj
      exact Nat.testBit_two_pow_of_ne (show k ≠ 32 - 1 - j by omega)
    · rw [show 32 - 1 - (31 - k) = k by omega]
      exact Nat.testBit_two_pow_self
  omega

/-- C10: both scan tables map only index 0 to in-block coefficient 0,
and for every power-of-two block count `B = 2^k` every coefficient
written by AC decoding has `pos ≥ B`, hence scan index `pos >> log2B ≥ 1`
and in-block index `≠ 0`: AC decoding never overwrites any DC value in
the scratchpad, whatever the bitstream contains and however decoding
ends. -/
theorem ac_never_overwrites_dc :
    (∀ j, 1 ≤ j → j < 64 →
      ProgressiveScanOrder.getD j 0 ≠ 0 ∧ InterlacedScanOrder.getD j 0 ≠ 0) ∧
    (∀ (k : Nat), k ≤ 31 → ∀ (scan : List Nat),
      scan = ProgressiveScanOrder ∨ scan = InterlacedScanOrder →
      ∀ (bs : Bitstream) (dest : DestMap) (b : Nat),
        (decodeACCoefficients bs dest (2 ^ k) scan).2.1 b 0 = dest b 0) := by
  refine ⟨scan_tables_nonzero_off_origin, ?_⟩
  intro k hk scan hscan bs dest b
  unfold decodeACCoefficients
  dsimp only
  rw [log2_of_pow k hk]
  apply acLoop_preserves_dc_row
  · intro j h1 hlen
    rcases hscan with rfl | rfl
    · have hl : ProgressiveScanOrder.length = 64 := rfl
      rw [hl] at hlen
      exact (scan_tables_nonzero_off_origin j h1 hlen).1
    · have hl : InterlacedScanOrder.length = 64 := rfl
      rw [hl] at hlen
      exact (scan_tables_nonzero_off_origin j h1 hlen).2
  · have := Nat.two_pow_pos k
    omega

/-- Witness for C10 at `B = 1`, the progressive scan and an empty stream. -/
theorem ac_never_overwrites_dc_witness :
    (decodeACCoefficients ⟨0, []⟩ (fun _ _ => 0) (2 ^ 0) ProgressiveScanOrder).2.1 0 0 =
      (fun _ _ => (0 : Int)) 0 0 :=
  ac_never_overwrites_dc.2 0 (by decide) ProgressiveScanOrder (Or.inl rfl) ⟨0, []⟩
    (fun _ _ => 0) 0

/-- Witness for C1 (amended) at `n = -7`. -/
theorem clamp10bit_amended_witness : clamp10bit (-7) = 0 :=
  (clamp10bit_amended (-7) (by decide) (by decide)).1 (by decide) (by decide)

/-! ## Cursor-advance lemmas for the bitstream operations -/

theorem readSmallUnary_some {bs : Bitstream} {d : Nat} {bs1 : Bitstream}
    (h : readSmallUnary bs = .ok d bs1) :
    bs1.bytes = bs.bytes ∧ bs1.offset = bs.offset + d + 1 := by
  unfold readSmallUnary at h
  dsimp only at h
  split at h
  · cases h
  · split at h
    · simp only [SUResult.ok.injEq] at h
      obtain ⟨rfl, rfl⟩ := h
      exact ⟨rfl, rfl⟩
    · split at h
      · cases h
      · split at h
        · simp only [SUResult.ok.injEq] at h
          obtain ⟨rfl, rfl⟩ := h
          exact ⟨rfl, rfl⟩
        · split at h
          · rename_i d2 hloop
            simp only [SUResult.ok.injEq] at h
            obtain ⟨rfl, rfl⟩ := h
            exact ⟨rfl, rfl⟩
          · cases h

theorem readInt_some {nbits : Nat} {bs : Bitstream} {v : Nat} {bs1 : Bitstream}
    (h : readInt nbits bs = some (v, bs1)) :
    bs1.bytes = bs.bytes ∧ bs1.offset = bs.offset + nbits := by
  unfold readInt at h
  split at h
  · exact absurd h (by simp)
  · split at h
    · rename_i hz
      simp only [Option.some.injEq, Prod.mk.injEq] at h
      obtain ⟨rfl, rfl⟩ := h
      exact ⟨rfl, by omega⟩
    · dsimp only at h
      simp only [Option.some.injEq, Prod.mk.injEq] at h
      obtain ⟨rfl, rfl⟩ := h
      exact ⟨rfl, rfl⟩

theorem readBit_some {bs : Bitstream} {v : Bool} {bs1 : Bitstream}
    (h : readBit bs = some (v, bs1)) :
    bs1.bytes = bs.bytes ∧ bs1.offset = bs.offset + 1 := by
  unfold readBit at h
  split at h
  · exact absurd h (by simp)
  · simp only [Option.some.injEq, Prod.mk.injEq] at h
    obtain ⟨rfl, rfl⟩ := h
    exact ⟨rfl, rfl⟩

theorem decode_some {p : Nat} {bs : Bitstream} {v : Int} {bs2 : Bitstream}
    (h : decode p bs = .ok v bs2) :
    bs2.bytes = bs.bytes ∧ bs.offset < bs2.offset := by
  unfold decode at h
  rcases hru : readSmallUnary bs with ⟨q, bs1⟩ | _ | _ <;> rw [hru] at h <;> dsimp only at h
  rotate_left
  · cases h
  · cases h
  · obtain ⟨hb1, ho1⟩ := readSmallUnary_some hru
    split at h
    · rcases hri : readInt ((expOrder p : Int) - (lastRiceQ p : Int) +
          ((q <<< 1 : Nat) : Int) - (q : Int) - 1).toNat bs1 with _ | ⟨n, bs3⟩ <;>
        rw [hri] at h <;> dsimp only at h
      · cases h
      · obtain ⟨hb2, ho2⟩ := readInt_some hri
        simp only [DecodeResult.ok.injEq] at h
        obtain ⟨rfl, rfl⟩ := h
        constructor
        · rw [hb2, hb1]
        · omega
    · split at h
      · rcases hri : readInt (riceOrder p) bs1 with _ | ⟨r, bs3⟩ <;>
          rw [hri] at h <;> dsimp only at h
        · cases h
        · obtain ⟨hb2, ho2⟩ := readInt_some hri
          simp only [DecodeResult.ok.injEq] at h
          obtain ⟨rfl, rfl⟩ := h
          constructor
          · rw [hb2, hb1]
          · omega
      · simp only [DecodeResult.ok.injEq] at h
        obtain ⟨rfl, rfl⟩ := h
        exact ⟨hb1, by omega⟩

theorem endOfData_false_offset {bs : Bitstream} (h : endOfData bs = false) :
    bs.offset < 8 * bs.bytes.length := by
  unfold endOfData at h
  dsimp only at h
  split at h
  · rename_i h32
    unfold remainingBits at h32
    omega
  · split at h
    · cases h
    · rename_i h32 h0
      unfold remainingBits at h0
      omega

/-- With fuel exceeding the remaining bit count, the AC loop never runs
out of fuel (every iteration consumes at least one bit), so the fuelled
model is exact for `decodeACCoefficients`. -/
theorem acLoop_no_fuelOut (B k mask : Nat) (scan : List Nat) :
    ∀ (fuel : Nat) (bs : Bitstream) (run level pos : Nat) (dest : DestMap),
      8 * bs.bytes.length - bs.offset < fuel →
      (acLoop B k mask scan fuel bs run level pos dest).1 ≠ ACResult.fuelOut := by
  intro fuel
  induction fuel with
  | zero => intro bs _ _ _ _ hf; omega
  | succ fuel ih =>
    intro bs run level pos dest hf
    unfold acLoop
    by_cases hend : endOfData bs
    · rw [if_pos hend]
      simp
    · rw [if_neg hend]
      dsimp only
      split
      · simp
      · simp
      · rename_i rv bs1 hrun
        split
        · simp
        · simp
        · rename_i lv bs2 hlev
          split
          · simp
          · split
            · simp
            · rename_i i hget
              split
              · simp
              · rename_i sign bs3 hbit
                apply ih
                obtain ⟨hb1, ho1⟩ := decode_some hrun
                obtain ⟨hb2, ho2⟩ := decode_some hlev
                obtain ⟨hb3, ho3⟩ := readBit_some hbit
                have hoff := endOfData_false_offset (by simpa using hend)
                rw [hb3, hb2, hb1]
                omega

theorem decodeAC_no_fuelOut (bs : Bitstream) (dest : DestMap) (B : Nat) (scan : List Nat) :
    (decodeACCoefficients bs dest B scan).1 ≠ ACResult.fuelOut := by
  unfold decodeACCoefficients
  exact acLoop_no_fuelOut _ _ _ _ _ _ _ _ _ _ (by omega)

/-! ## Claim C6: DC coefficient decoding -/

/-- The claim's DC recurrence, written as a pure chain: state after `i`
decoded codewords is `(key, sign, prev, stream)` where `key` is the
previously decoded magnitude that selects the next parameter-table
entry (saturating at the last of the 7 entries), `sign` is the running
sign, and `prev` the running DC value.  The first codeword is decoded
under the fixed descriptor `0xB8` and unmapped via
`(x >> 1) ^ -(x & 1)`; the loop enters with key 5 and sign 0.
Each subsequent step decodes code `c`, updates
`sign ^= -(c & 1)` when `c ≠ 0` (else `sign = 0`) and
`prev += ((c + 1) >> 1) ^ sign - sign`. -/
def dcChain (bs : Bitstream) : Nat → Option (Nat × Int × Int × Bitstream)
  | 0 =>
    match decode 0xb8 bs with
    | .fail => none
    | .oobSlice => none
    | .ok c bs1 => some (5, 0, intXor (intShr c 1) (-(c % 2)), bs1)
  | i + 1 =>
    match dcChain bs i with
    | none => none
    | some (key, sign, prev, bsi) =>
      match decode (dcCodeParams.getD (min key 6) 0) bsi with
      | .fail => none
      | .oobSlice => none
      | .ok c bs1 =>
        let cn := c.toNat
        let sign1 := if cn ≠ 0 then intXor sign (-((cn : Int) % 2)) else 0
        some (cn, sign1, prev + intXor (((cn + 1) >>> 1 : Nat) : Int) sign1 - sign1, bs1)

/-- `dcLoop` only writes rows `istart ≤ i < istart + n` (at column 0). -/
theorem dcLoop_frame (B : Nat) : ∀ (n istart : Nat) (bs : Bitstream) (key : Nat)
    (sign prev : Int) (dest : DestMap) (j c : Nat),
    j < istart ∨ istart + n ≤ j →
    (dcLoop B n istart bs key sign prev dest).2.1 j c = dest j c := by
  intro n
  induction n with
  | zero => intro istart bs key sign prev dest j c hj; rfl
  | succ n ih =>
    intro istart bs key sign prev dest j c hj
    unfold dcLoop
    dsimp only
    split
    · rfl
    · rfl
    · rename_i cc bs1 hdec
      rw [ih (istart + 1) bs1 _ _ _ _ j c (by omega)]
      unfold updateDest
      rw [if_neg (by omega)]

/-- If the differential loop succeeds, every row it fills agrees with
the claim recurrence `dcChain`. -/
theorem dcLoop_chain (B : Nat) (bs0 : Bitstream) : ∀ (n i0 : Nat) (bs : Bitstream)
    (key : Nat) (sign prev : Int) (dest : DestMap),
    dcChain bs0 i0 = some (key, sign, prev, bs) →
    (dcLoop B n (i0 + 1) bs key sign prev dest).1 = .ok →
    ∀ m, m < n →
      ∃ key2 sign2 prev2 bs2, dcChain bs0 (i0 + 1 + m) = some (key2, sign2, prev2, bs2) ∧
        (dcLoop B n (i0 + 1) bs key sign prev dest).2.1 (i0 + 1 + m) 0 = wrap16 prev2 := by
  intro n
  induction n with
  | zero => intro i0 bs key sign prev dest hchain hok m hm; omega
  | succ n ih =>
    intro i0 bs key sign prev dest hchain hok m hm
    have hparams : (if key < 7 then dcCodeParams.getD key 0 else dcCodeParams.getD 6 0) =
        dcCodeParams.getD (min key 6) 0 := by
      rcases Nat.lt_or_ge key 7 with hk | hk
      · rw [if_pos hk, show min key 6 = key from by omega]
      · rw [if_neg (by omega), show min key 6 = 6 from by omega]
    unfold dcLoop at hok ⊢
    dsimp only at hok ⊢
    rw [hparams] at hok ⊢
    rcases hdec : decode (dcCodeParams.getD (min key 6) 0) bs with ⟨c, bs1⟩ | _ | _ <;>
      rw [hdec] at hok <;> dsimp only at hok ⊢
    rotate_left
    · cases hok
    · cases hok
    · have hchain1 : dcChain bs0 (i0 + 1) = some (c.toNat,
          (if c.toNat ≠ 0 then intXor sign (-((c.toNat : Int) % 2)) else 0),
          prev + intXor (((c.toNat + 1) >>> 1 : Nat) : Int)
              (if c.toNat ≠ 0 then intXor sign (-((c.toNat : Int) % 2)) else 0) -
            (if c.toNat ≠ 0 then intXor sign (-((c.toNat : Int) % 2)) else 0), bs1) := by
        unfold dcChain
        rw [hchain]
        dsimp only
        rw [hdec]
      rcases m with _ | m
      · refine ⟨_, _, _, _, hchain1, ?_⟩
        rw [dcLoop_frame B n (i0 + 1 + 1) bs1 _ _ _ _ (i0 + 1 + 0) 0 (by omega)]
        unfold updateDest
        rw [if_pos ⟨by omega, rfl⟩]
      · have hstep := ih (i0 + 1) bs1 _ _ _ _ hchain1 hok m (by omega)
        obtain ⟨k2, s2, p2, b2, hc2, hd2⟩ := hstep
        refine ⟨k2, s2, p2, b2, ?_, ?_⟩
        · rwa [show i0 + 1 + (m + 1) = i0 + 1 + 1 + m by omega]
        · rwa [show i0 + 1 + (m + 1) = i0 + 1 + 1 + m by omega]

/-- C6: DC decoding writes exactly the claim's recurrence: block 0 gets
the 0xB8-decoded codeword unmapped via `(x >> 1) ^ -(x & 1)`, and each
subsequent block `i` gets `prev + (((code+1) >> 1) ^ sign) - sign`
(stored as an `int16`), where `code` is decoded under the 7-entry table
keyed by the previous magnitude (saturating at the last entry) and
`sign` is updated as `sign ^= -(code & 1)` when `code ≠ 0`, else reset
to 0. -/
theorem dc_decoding_matches_recurrence :
    ∀ (numberOfBlocks : Nat) (bs : Bitstream) (dest : DestMap),
      1 ≤ numberOfBlocks →
      (decodeDCCoefficients bs dest numberOfBlocks).1 = .ok →
      ∀ i, i < numberOfBlocks →
        ∃ key sign prev bsi, dcChain bs i = some (key, sign, prev, bsi) ∧
          (decodeDCCoefficients bs dest numberOfBlocks).2.1 i 0 = wrap16 prev := by
  intro B bs dest hB hok i hi
  unfold decodeDCCoefficients at hok ⊢
  rcases hdec : decode 0xb8 bs with ⟨c, bs1⟩ | _ | _ <;> rw [hdec] at hok <;>
    dsimp only at hok ⊢
  rotate_left
  · cases hok
  · cases hok
  · have hchain0 : dcChain bs 0 = some (5, 0, intXor (intShr c 1) (-(c % 2)), bs1) := by
      unfold dcChain
      rw [hdec]
    rcases i with _ | m
    · refine ⟨_, _, _, _, hchain0, ?_⟩
      rw [dcLoop_frame B (B - 1) 1 bs1 _ _ _ _ 0 0 (by omega)]
      unfold updateDest
      rw [if_pos ⟨rfl, rfl⟩]
    · obtain ⟨k2, s2, p2, b2, hc2, hd2⟩ :=
        dcLoop_chain B bs (B - 1) 0 bs1 5 0 _ _ hchain0 hok m (by omega)
      rw [show 0 + 1 + m = m + 1 by omega] at hc2 hd2
      exact ⟨k2, s2, p2, b2, hc2, hd2⟩

/-- Witness for C6: a two-block slice over the bytes `86 80`. -/
theorem dc_decoding_matches_recurrence_witness :
    ∃ key sign prev bsi, dcChain ⟨0, [0x86, 0x80]⟩ 1 = some (key, sign, prev, bsi) ∧
      (decodeDCCoefficients ⟨0, [0x86, 0x80]⟩ (fun _ _ => 0) 2).2.1 1 0 = wrap16 prev :=
  dc_decoding_matches_recurrence 2 ⟨0, [0x86, 0x80]⟩ (fun _ _ => 0) (by decide) (by rfl) 1
    (by decide)

/-! ## Bit-assembly lemmas -/

theorem lt_pow_mono {a m n : Nat} (h : a < 2 ^ m) (hmn : m ≤ n) : a < 2 ^ n :=
  lt_of_lt_of_le h (Nat.pow_le_pow_right (by omega) hmn)

theorem shiftLeft_lt {a m k : Nat} (h : a < 2 ^ m) : a <<< k < 2 ^ (m + k) := by
  rw [Nat.shiftLeft_eq, Nat.pow_add]
  exact Nat.mul_lt_mul_of_lt_of_le h (le_refl _) (Nat.two_pow_pos k)

theorem lor_lt_two_pow {a b n : Nat} (ha : a < 2 ^ n) (hb : b < 2 ^ n) : a ||| b < 2 ^ n := by
  apply lt_two_pow_of_testBit_false
  intro i hi
  rw [Nat.testBit_lor, testBit_false_of_lt ha hi, testBit_false_of_lt hb hi]
  rfl

theorem shiftRight_lt_pow {A sr m n : Nat} (hA : A < 2 ^ m) (hmn : m ≤ n + sr) :
    A >>> sr < 2 ^ n := by
  rw [Nat.shiftRight_eq_div_pow]
  rw [Nat.div_lt_iff_lt_mul (Nat.two_pow_pos sr)]
  calc A < 2 ^ m := hA
    _ ≤ 2 ^ (n + sr) := Nat.pow_le_pow_right (by omega) hmn
    _ = 2 ^ n * 2 ^ sr := Nat.pow_add 2 n sr

theorem ff_shiftRight {s : Nat} (hs : s < 8) : (0xff >>> s : Nat) = 2 ^ (8 - s) - 1 := by
  interval_cases s <;> decide

theorem and_ff_shift_lt {x s : Nat} (hs : s < 8) : x &&& (0xff >>> s) < 2 ^ (8 - s) := by
  rw [ff_shiftRight hs, Nat.and_pow_two_sub_one_eq_mod]
  exact Nat.mod_lt _ (Nat.two_pow_pos _)

theorem testBit_mulPowAdd {x y k : Nat} (hy : y < 2 ^ k) (j : Nat) :
    (x * 2 ^ k + y).testBit j = if j < k then y.testBit j else x.testBit (j - k) := by
  rcases Nat.lt_or_ge j k with hj | hj
  · rw [if_pos hj, Nat.testBit_to_div_mod, Nat.testBit_to_div_mod]
    have hx : x * 2 ^ k = x * 2 ^ (k - j - 1) * 2 * 2 ^ j := by
      rw [Nat.mul_assoc, Nat.mul_assoc, ← Nat.pow_succ']
      congr 2
      rw [← Nat.pow_add]
      congr 1
      omega
    rw [hx, Nat.add_comm, Nat.add_mul_div_right _ _ (Nat.two_pow_pos j)]
    simp only [decide_eq_decide]
    omega
  · rw [if_neg (by omega), Nat.testBit_to_div_mod, Nat.testBit_to_div_mod]
    have h2 : (2 : Nat) ^ j = 2 ^ k * 2 ^ (j - k) := by
      rw [← Nat.pow_add]
      congr 1
      omega
    rw [h2, ← Nat.div_div_eq_div_mul, Nat.add_comm,
      Nat.add_mul_div_right _ _ (Nat.two_pow_pos k), Nat.div_eq_of_lt hy, Nat.zero_add]

theorem lor_eq_add {x y k : Nat} (hy : y < 2 ^ k) : (x <<< k) ||| y = x <<< k + y := by
  apply Nat.eq_of_testBit_eq
  intro j
  rw [Nat.testBit_lor, Nat.testBit_shiftLeft, Nat.shiftLeft_eq, testBit_mulPowAdd hy]
  rcases Nat.lt_or_ge j k with hj | hj
  · rw [if_pos hj]
    simp only [ge_iff_le, decide_eq_true_eq]
    rw [decide_eq_false (by omega), Bool.false_and, Bool.false_or]
  · rw [if_neg (by omega)]
    rw [decide_eq_true hj, Bool.true_and]
    rw [testBit_false_of_lt hy hj, Bool.or_false]

/-- A successful `ReadInt` stores a value below `2^nbits` (even on the
misaligned wide reads where the value itself is wrong). -/
theorem readInt_lt {nbits : Nat} {bs : Bitstream} {v : Nat} {bs1 : Bitstream}
    (wf : WfBytes bs.bytes) (h : readInt nbits bs = some (v, bs1)) : v < 2 ^ nbits := by
  unfold readInt at h
  split at h
  · exact absurd h (by simp)
  · split at h
    · simp only [Option.some.injEq, Prod.mk.injEq] at h
      obtain ⟨rfl, rfl⟩ := h
      positivity
    · rename_i hcond hz
      push_neg at hcond
      dsimp only at h
      simp only [Option.some.injEq, Prod.mk.injEq] at h
      obtain ⟨rfl, rfl⟩ := h
      have hs8 : bs.offset % 8 < 8 := Nat.mod_lt _ (by omega)
      have hb0 : byteAt bs.bytes (bs.offset / 8 + 0) &&& (0xff >>> (bs.offset % 8)) <
          2 ^ (8 - bs.offset % 8) := and_ff_shift_lt hs8
      have hby : ∀ j, byteAt bs.bytes (bs.offset / 8 + j) < 2 ^ 8 := fun j => byteAt_lt wf _
      split
      · rename_i h24
        exact shiftRight_lt_pow
          (show _ < 2 ^ (32 - bs.offset % 8) from
            lor_lt_two_pow (lor_lt_two_pow (lor_lt_two_pow
              (lt_pow_mono (shiftLeft_lt hb0) (by omega))
              (lt_pow_mono (shiftLeft_lt (hby 1)) (by omega)))
              (lt_pow_mono (shiftLeft_lt (hby 2)) (by omega)))
              (lt_pow_mono (hby 3) (by omega)))
          (by omega)
      · split
        · rename_i h24 h16
          exact shiftRight_lt_pow
            (show _ < 2 ^ (24 - bs.offset % 8) from
              lor_lt_two_pow (lor_lt_two_pow
                (lt_pow_mono (shiftLeft_lt hb0) (by omega))
                (lt_pow_mono (shiftLeft_lt (hby 1)) (by omega)))
                (lt_pow_mono (hby 2) (by omega)))
            (by omega)
        · split
          · rename_i h24 h16 h8
            exact shiftRight_lt_pow
              (show _ < 2 ^ (16 - bs.offset % 8) from
                lor_lt_two_pow
                  (lt_pow_mono (shiftLeft_lt hb0) (by omega))
                  (lt_pow_mono (hby 1) (by omega)))
              (by omega)
          · rename_i h24 h16 h8
            exact shiftRight_lt_pow hb0 (by omega)

/-! ## Claim C2: the adaptive code, as the spec states it -/

/-- The claim's closed-form offset: `-(1 << exp_order) +
((rice_switch + 1) << rice_order)`. -/
def offsetFormula (p : Nat) : Int :=
  -(((1 <<< expOrder p : Nat) : Int)) + (((lastRiceQ p + 1) <<< riceOrder p : Nat) : Int)

/-- Decoding one codeword exactly as the claim words it: read the unary
prefix `q`; if `q ≤ rice_switch` the value is `(q << rice_order) | r`
with `r` the next `rice_order` bits (just `q` when `rice_order = 0`);
otherwise read `w = exp_order - rice_switch + q - 1` further bits `n`
and the value is `((1 << w) | n) + offset(p)`. -/
def decodeSpec (p : Nat) (bs : Bitstream) : DecodeResult :=
  match readSmallUnary bs with
  | .fail => .fail
  | .oobSlice => .oobSlice
  | .ok q bs1 =>
    if q ≤ lastRiceQ p then
      if riceOrder p = 0 then .ok (q : Int) bs1
      else
        match readInt (riceOrder p) bs1 with
        | none => .fail
        | some (r, bs2) => .ok (((q <<< riceOrder p) ||| r : Nat) : Int) bs2
    else
      match readInt (expOrder p + q - lastRiceQ p - 1) bs1 with
      | none => .fail
      | some (n, bs2) =>
        .ok ((((1 <<< (expOrder p + q - lastRiceQ p - 1)) ||| n : Nat) : Int) +
          offsetFormula p) bs2

/-- The Go bit count `k - lastRiceQ + (q<<1) - q - 1` equals
`exp_order - rice_switch + q - 1` when `q > rice_switch`. -/
theorem decode_w_toNat {p q : Nat} (hq : lastRiceQ p < q) :
    ((expOrder p : Int) - (lastRiceQ p : Int) + ((q <<< 1 : Nat) : Int) - (q : Int) -
      1).toNat = expOrder p + q - lastRiceQ p - 1 := by
  rw [Nat.shiftLeft_eq]
  push_cast
  omega

/-- C2: `CodeParameters.Decode` computes exactly the hybrid code of the
claim, and the precomputed 256-entry table value equals the closed-form
offset for every descriptor byte. -/
theorem decode_matches_spec :
    (∀ p : Nat, p < 256 → expGolombSubexprs p = offsetFormula p) ∧
    ∀ (p : Nat) (bs : Bitstream), WfBytes bs.bytes → decode p bs = decodeSpec p bs := by
  constructor
  · intro p _
    rfl
  · intro p bs wf
    unfold decode decodeSpec
    rcases hru : readSmallUnary bs with ⟨q, bs1⟩ | _ | _
    rotate_left
    · rfl
    · rfl
    · obtain ⟨hb1, ho1⟩ := readSmallUnary_some hru
      dsimp only
      rcases Nat.lt_or_ge (lastRiceQ p) q with hq | hq
      · rw [if_pos hq, if_neg (by omega), decode_w_toNat hq]
        rfl
      · rw [if_neg (by omega), if_pos hq]
        by_cases hro : riceOrder p = 0
        · rw [if_neg (by omega), if_pos hro]
        · rw [if_pos hro, if_neg hro]
          rcases hri : readInt (riceOrder p) bs1 with _ | ⟨r, bs2⟩
          · rfl
          · dsimp only
            have hr : r < 2 ^ riceOrder p := readInt_lt (hb1 ▸ wf) hri
            rw [lor_eq_add hr]

/-- Witness for C2 over the descriptor `0x28` and the bytes `40 00`. -/
theorem decode_matches_spec_witness :
    expGolombSubexprs 0x28 = offsetFormula 0x28 ∧
    decode 0x28 ⟨0, [0x40, 0x00]⟩ = decodeSpec 0x28 ⟨0, [0x40, 0x00]⟩ :=
  ⟨decode_matches_spec.1 0x28 (by decide),
   decode_matches_spec.2 0x28 ⟨0, [0x40, 0x00]⟩ (by decide)⟩

/-! ## Claim C7: EndOfData -/

theorem bitAt_byte {a : List Nat} {k t : Nat} (ht : t < 8) :
    bitAt a (8 * k + t) = (byteAt a k).testBit (7 - t) := by
  unfold bitAt
  rw [show (8 * k + t) / 8 = k by omega, show (8 * k + t) % 8 = t by omega]

theorem lor_eq_zero_iff {a b : Nat} : a ||| b = 0 ↔ a = 0 ∧ b = 0 := by
  constructor
  · intro h
    have h1 := left_le_lor a b
    have h2 := left_le_lor b a
    rw [Nat.lor_comm] at h2
    omega
  · rintro ⟨rfl, rfl⟩
    rfl

/-- The masked-and-shifted first byte is zero iff all its bits from
position `s` on are zero. -/
theorem byteShift_zero_iff {b s : Nat} (hb : b < 256) (hs : s < 8) :
    (b <<< s) % 256 = 0 ↔ ∀ t, s ≤ t → t < 8 → b.testBit (7 - t) = false := by
  constructor
  · intro h t hst ht8
    have hbit : ((b <<< s) % 256).testBit (7 - t + s) = false := by
      rw [h]
      exact Nat.zero_testBit _
    rw [show (256 : Nat) = 2 ^ 8 from rfl, Nat.testBit_mod_two_pow, Nat.testBit_shiftLeft,
      decide_eq_true (show 7 - t + s < 8 by omega), Bool.true_and,
      decide_eq_true (show 7 - t + s ≥ s by omega), Bool.true_and,
      show 7 - t + s - s = 7 - t by omega] at hbit
    exact hbit
  · intro h
    rw [eq_zero_iff_testBit_false]
    intro i
    rw [show (256 : Nat) = 2 ^ 8 from rfl, Nat.testBit_mod_two_pow, Nat.testBit_shiftLeft]
    rcases Nat.lt_or_ge i 8 with hi | hi
    · rcases Nat.lt_or_ge i s with his | his
      · simp only [ge_iff_le, Bool.and_eq_false_imp, decide_eq_true_eq, Bool.and_eq_true]
        omega
      · have := h (7 - (i - s)) (by omega) (by omega)
        rw [show 7 - (7 - (i - s)) = i - s by omega] at this
        rw [this]
        simp
    · rw [decide_eq_false (by omega)]
      simp
  
theorem byte_eq_zero_iff {b : Nat} (hb : b < 256) :
    b = 0 ↔ ∀ t, t < 8 → b.testBit (7 - t) = false := by
  constructor
  · rintro rfl t _
    exact Nat.zero_testBit _
  · intro h
    rw [eq_zero_iff_testBit_false]
    intro i
    rcases Nat.lt_or_ge i 8 with hi | hi
    · have := h (7 - i) (by omega)
      rwa [show 7 - (7 - i) = i by omega] at this
    · exact testBit_false_of_lt hb hi

/-- The `EndOfData` byte test over the `l` remaining bytes equals
"all remaining bits are zero". -/
theorem bytes_zero_iff_bits {a : List Nat} (wf : WfBytes a) (off l : Nat)
    (hlen : a.length = off / 8 + l) (hl1 : 1 ≤ l) :
    ((byteAt a (off / 8 + 0) <<< (off % 8)) % 256 = 0 ∧
      ∀ j, 1 ≤ j → j < l → byteAt a (off / 8 + j) = 0) ↔
    ∀ i, off ≤ i → i < 8 * a.length → bitAt a i = false := by
  constructor
  · rintro ⟨h0, hj⟩ i hi1 hi2
    rcases Nat.lt_or_ge i (8 * (off / 8) + 8) with hfst | hrest
    · rw [show i = 8 * (off / 8) + i % 8 by omega,
        bitAt_byte (show i % 8 < 8 by omega)]
      exact (byteShift_zero_iff (byteAt_lt wf _) (by omega)).mp h0 (i % 8) (by omega) (by omega)
    · have hj1 : 1 ≤ i / 8 - off / 8 := by omega
      have hj2 : i / 8 - off / 8 < l := by omega
      have hz := hj (i / 8 - off / 8) hj1 hj2
      rw [show off / 8 + (i / 8 - off / 8) = i / 8 by omega] at hz
      rw [show i = 8 * (i / 8) + i % 8 by omega, bitAt_byte (show i % 8 < 8 by omega), hz]
      exact Nat.zero_testBit _
  · intro h
    constructor
    · rw [byteShift_zero_iff (byteAt_lt wf _) (by omega)]
      intro t hst ht8
      rw [show off / 8 + 0 = off / 8 by omega, ← bitAt_byte ht8]
      exact h _ (by omega) (by omega)
    · intro j hj1 hjl
      rw [byte_eq_zero_iff (byteAt_lt wf _)]
      intro t ht8
      rw [← bitAt_byte ht8]
      exact h _ (by omega) (by omega)

/-- C7: `end_of_data` returns true iff fewer than 32 bits remain
unconsumed and every remaining unconsumed bit is zero; in particular it
never returns true while a 1-bit remains in the next 32 bits. -/
theorem endOfData_iff (bs : Bitstream) (wf : WfBytes bs.bytes) :
    endOfData bs = true ↔
      remainingBits bs < 32 ∧
        ∀ i, bs.offset ≤ i → i < 8 * bs.bytes.length → bitAt bs.bytes i = false := by
  unfold endOfData remainingBits
  dsimp only
  split
  · rename_i h32
    constructor
    · intro hc
      cases hc
    · rintro ⟨hr, _⟩
      omega
  · rename_i h32
    split
    · rename_i h0
      constructor
      · intro _
        exact ⟨by omega, fun i h1 h2 => by omega⟩
      · intro _
        rfl
    · rename_i h0
      have hrem : (8 * (bs.bytes.length : Int) - bs.offset) < 32 := by omega
      split
      · rename_i h24
        have hlen : bs.bytes.length = bs.offset / 8 + 4 := by omega
        rw [beq_iff_eq, lor_eq_zero_iff, lor_eq_zero_iff, lor_eq_zero_iff]
        constructor
        · rintro ⟨⟨⟨hb0, hb1⟩, hb2⟩, hb3⟩
          refine ⟨hrem, (bytes_zero_iff_bits wf bs.offset 4 hlen (by omega)).mp
            ⟨hb0, fun j hj1 hj4 => ?_⟩⟩
          interval_cases j <;> assumption
        · rintro ⟨-, hbits⟩
          obtain ⟨hb0, hj⟩ := (bytes_zero_iff_bits wf bs.offset 4 hlen (by omega)).mpr hbits
          exact ⟨⟨⟨hb0, hj 1 (by omega) (by omega)⟩, hj 2 (by omega) (by omega)⟩,
            hj 3 (by omega) (by omega)⟩
      · rename_i h24
        split
        · rename_i h16
          have hlen : bs.bytes.length = bs.offset / 8 + 3 := by omega
          rw [beq_iff_eq, lor_eq_zero_iff, lor_eq_zero_iff]
          constructor
          · rintro ⟨⟨hb0, hb1⟩, hb2⟩
            refine ⟨hrem, (bytes_zero_iff_bits wf bs.offset 3 hlen (by omega)).mp
              ⟨hb0, fun j hj1 hj3 => ?_⟩⟩
            interval_cases j <;> assumption
          · rintro ⟨-, hbits⟩
            obtain ⟨hb0, hj⟩ := (bytes_zero_iff_bits wf bs.offset 3 hlen (by omega)).mpr hbits
            exact ⟨⟨hb0, hj 1 (by omega) (by omega)⟩, hj 2 (by omega) (by omega)⟩
        · rename_i h16
          split
          · rename_i h8
            have hlen : bs.bytes.length = bs.offset / 8 + 2 := by omega
            rw [beq_iff_eq, lor_eq_zero_iff]
            constructor
            · rintro ⟨hb0, hb1⟩
              refine ⟨hrem, (bytes_zero_iff_bits wf bs.offset 2 hlen (by omega)).mp
                ⟨hb0, fun j hj1 hj2 => ?_⟩⟩
              interval_cases j <;> assumption
            · rintro ⟨-, hbits⟩
              obtain ⟨hb0, hj⟩ := (bytes_zero_iff_bits wf bs.offset 2 hlen (by omega)).mpr hbits
              exact ⟨hb0, hj 1 (by omega) (by omega)⟩
          · rename_i h8
            have hlen : bs.bytes.length = bs.offset / 8 + 1 := by omega
            rw [beq_iff_eq]
            constructor
            · intro hb0
              exact ⟨hrem, (bytes_zero_iff_bits wf bs.offset 1 hlen (by omega)).mp
                ⟨hb0, fun j hj1 hj2 => by omega⟩⟩
            · rintro ⟨-, hbits⟩
              exact ((bytes_zero_iff_bits wf bs.offset 1 hlen (by omega)).mpr hbits).1

/-- Witness for C7: 24 remaining zero bits. -/
theorem endOfData_iff_witness :
    endOfData ⟨0, [0, 0, 0]⟩ = true ↔
      remainingBits ⟨0, [0, 0, 0]⟩ < 32 ∧
        ∀ i, 0 ≤ i → i < 8 * (3 : Nat) → bitAt [0, 0, 0] i = false :=
  endOfData_iff ⟨0, [0, 0, 0]⟩ (by decide)

/-! ## MSB-first bit-string values (for claims C3 and C4) -/

theorem bitsBE_lt (a : List Nat) (i : Nat) : ∀ n, bitsBE a i n < 2 ^ n := by
  intro n
  induction n with
  | zero =>
    rw [show bitsBE a i 0 = 0 from rfl]
    omega
  | succ n ih =>
    unfold bitsBE
    rw [Nat.pow_succ]
    split <;> omega

theorem bitsBE_testBit (a : List Nat) (i : Nat) : ∀ n u,
    (bitsBE a i n).testBit u =
      (decide (u < n) && bitAt a (i + (n - 1 - u))) := by
  intro n
  induction n with
  | zero =>
    intro u
    rw [show bitsBE a i 0 = 0 from rfl, Nat.zero_testBit, decide_eq_false (by omega),
      Bool.false_and]
  | succ n ih =>
    intro u
    show (2 * bitsBE a i n + (if bitAt a (i + n) then 1 else 0)).testBit u = _
    rcases u with _ | u
    · rw [Nat.testBit_zero, decide_eq_true (show (0 : Nat) < n + 1 by omega), Bool.true_and,
        show n + 1 - 1 - 0 = n by omega]
      rcases hb : bitAt a (i + n) with _ | _ <;> simp [hb, Nat.mul_add_mod]
    · rw [Nat.testBit_add_one,
        show (2 * bitsBE a i n + (if bitAt a (i + n) then 1 else 0)) / 2 = bitsBE a i n
          from by split <;> omega,
        ih u]
      rcases Nat.lt_or_ge u n with hu | hu
      · rw [decide_eq_true (by omega), decide_eq_true (by omega),
          show n - 1 - u = n + 1 - 1 - (u + 1) by omega]
      · rw [decide_eq_false (by omega), decide_eq_false (by omega), Bool.false_and,
          Bool.false_and]

theorem bitsBE_append (a : List Nat) (i : Nat) : ∀ (n m : Nat),
    bitsBE a i (m + n) = bitsBE a i m * 2 ^ n + bitsBE a (i + m) n := by
  intro n
  induction n with
  | zero => intro m; rw [Nat.add_zero, Nat.pow_zero, Nat.mul_one]; rfl
  | succ n ih =>
    intro m
    rw [show m + (n + 1) = m + n + 1 by omega]
    show 2 * bitsBE a i (m + n) + (if bitAt a (i + (m + n)) then 1 else 0) = _
    rw [ih m]
    show _ = bitsBE a i m * 2 ^ (n + 1) +
      (2 * bitsBE a (i + m) n + (if bitAt a (i + m + n) then 1 else 0))
    rw [show i + (m + n) = i + m + n by omega, Nat.pow_succ]
    ring

theorem bitsBE_shiftRight (a : List Nat) (i n sr : Nat) :
    bitsBE a i (n + sr) >>> sr = bitsBE a i n := by
  rw [bitsBE_append, Nat.shiftRight_eq_div_pow, Nat.add_comm (bitsBE a i n * 2 ^ sr),
    Nat.add_mul_div_right _ _ (Nat.two_pow_pos sr),
    Nat.div_eq_of_lt (bitsBE_lt a (i + n) sr), Nat.zero_add]

theorem bitsBE_byte {a : List Nat} (wf : WfBytes a) (k : Nat) :
    bitsBE a (8 * k) 8 = byteAt a k := by
  apply Nat.eq_of_testBit_eq
  intro u
  rw [bitsBE_testBit]
  rcases Nat.lt_or_ge u 8 with hu | hu
  · rw [decide_eq_true hu, Bool.true_and, show 8 * k + (8 - 1 - u) = 8 * k + (7 - u) by omega,
      bitAt_byte (by omega), show 7 - (7 - u) = u by omega]
  · rw [decide_eq_false (by omega), Bool.false_and,
      testBit_false_of_lt (byteAt_lt wf k) hu]

theorem bitsBE_maskedByte {a : List Nat} (wf : WfBytes a) (k s : Nat) (hs : s < 8) :
    bitsBE a (8 * k + s) (8 - s) = byteAt a k &&& (0xff >>> s) := by
  apply Nat.eq_of_testBit_eq
  intro u
  rw [bitsBE_testBit, Nat.testBit_land, ff_shiftRight hs, Nat.testBit_two_pow_sub_one]
  rcases Nat.lt_or_ge u (8 - s) with hu | hu
  · rw [decide_eq_true hu, Bool.true_and,
      show 8 * k + s + (8 - s - 1 - u) = 8 * k + (7 - u) by omega,
      bitAt_byte (by omega), show 7 - (7 - u) = u by omega, Bool.and_true]
  · rw [decide_eq_false (show ¬u < 8 - s by omega), Bool.false_and, Bool.and_false]

theorem pow_dvd_shiftLeft (x k m : Nat) (h : k ≤ m) : 2 ^ k ∣ x <<< m := by
  rw [Nat.shiftLeft_eq]
  exact Dvd.dvd.mul_left (pow_dvd_pow 2 h) x

theorem lor_eq_add_of_dvd {x y k : Nat} (hx : 2 ^ k ∣ x) (hy : y < 2 ^ k) :
    x ||| y = x + y := by
  obtain ⟨c, rfl⟩ := hx
  rw [show (2 : Nat) ^ k * c = c <<< k from by rw [Nat.shiftLeft_eq]; ring, lor_eq_add hy]

theorem readInt_assemble4 {a : List Nat} (wf : WfBytes a) (pos s : Nat) (hs : s < 8) :
    ((byteAt a (pos + 0) &&& (0xff >>> s)) <<< 24 ||| byteAt a (pos + 1) <<< 16 |||
      byteAt a (pos + 2) <<< 8 ||| byteAt a (pos + 3)) = bitsBE a (8 * pos + s) (32 - s) := by
  rw [lor_eq_add_of_dvd (pow_dvd_shiftLeft _ 24 24 (by omega))
      (show _ < 2 ^ 24 from lt_pow_mono (shiftLeft_lt (show _ < 2 ^ 8 from byteAt_lt wf _)) (by omega)),
    lor_eq_add_of_dvd (Dvd.dvd.add (pow_dvd_shiftLeft _ 16 24 (by omega))
      (pow_dvd_shiftLeft _ 16 16 (by omega)))
      (show _ < 2 ^ 16 from lt_pow_mono (shiftLeft_lt (show _ < 2 ^ 8 from byteAt_lt wf _)) (by omega)),
    lor_eq_add_of_dvd (Dvd.dvd.add (Dvd.dvd.add (pow_dvd_shiftLeft _ 8 24 (by omega))
      (pow_dvd_shiftLeft _ 8 16 (by omega))) (pow_dvd_shiftLeft _ 8 8 (by omega)))
      (show _ < 2 ^ 8 from byteAt_lt wf _)]
  rw [show 32 - s = (8 - s) + 24 by omega, bitsBE_append,
    show 8 * pos + s + (8 - s) = 8 * (pos + 1) by omega,
    show (24 : Nat) = 8 + 16 from rfl, bitsBE_append,
    show 8 * (pos + 1) + 8 = 8 * (pos + 2) by omega,
    show (16 : Nat) = 8 + 8 from rfl, bitsBE_append,
    show 8 * (pos + 2) + 8 = 8 * (pos + 3) by omega,
    bitsBE_byte wf, bitsBE_byte wf, bitsBE_byte wf,
    show bitsBE a (8 * pos + s) (8 - s) = byteAt a (pos + 0) &&& (0xff >>> s) from by
      rw [show pos + 0 = pos from rfl]
      exact bitsBE_maskedByte wf pos s hs,
    Nat.shiftLeft_eq, Nat.shiftLeft_eq, Nat.shiftLeft_eq]
  ring_nf

theorem readInt_assemble3 {a : List Nat} (wf : WfBytes a) (pos s : Nat) (hs : s < 8) :
    ((byteAt a (pos + 0) &&& (0xff >>> s)) <<< 16 ||| byteAt a (pos + 1) <<< 8 |||
      byteAt a (pos + 2)) = bitsBE a (8 * pos + s) (24 - s) := by
  rw [lor_eq_add_of_dvd (pow_dvd_shiftLeft _ 16 16 (by omega))
      (show _ < 2 ^ 16 from lt_pow_mono (shiftLeft_lt (show _ < 2 ^ 8 from byteAt_lt wf _)) (by omega)),
    lor_eq_add_of_dvd (Dvd.dvd.add (pow_dvd_shiftLeft _ 8 16 (by omega))
      (pow_dvd_shiftLeft _ 8 8 (by omega))) (show _ < 2 ^ 8 from byteAt_lt wf _)]
  rw [show 24 - s = (8 - s) + 16 by omega, bitsBE_append,
    show 8 * pos + s + (8 - s) = 8 * (pos + 1) by omega,
    show (16 : Nat) = 8 + 8 from rfl, bitsBE_append,
    show 8 * (pos + 1) + 8 = 8 * (pos + 2) by omega,
    bitsBE_byte wf, bitsBE_byte wf,
    show bitsBE a (8 * pos + s) (8 - s) = byteAt a (pos + 0) &&& (0xff >>> s) from by
      rw [show pos + 0 = pos from rfl]
      exact bitsBE_maskedByte wf pos s hs,
    Nat.shiftLeft_eq, Nat.shiftLeft_eq]
  ring_nf

theorem readInt_assemble2 {a : List Nat} (wf : WfBytes a) (pos s : Nat) (hs : s < 8) :
    ((byteAt a (pos + 0) &&& (0xff >>> s)) <<< 8 ||| byteAt a (pos + 1)) =
      bitsBE a (8 * pos + s) (16 - s) := by
  rw [lor_eq_add_of_dvd (pow_dvd_shiftLeft _ 8 8 (by omega))
      (show _ < 2 ^ 8 from byteAt_lt wf _)]
  rw [show 16 - s = (8 - s) + 8 by omega, bitsBE_append,
    show 8 * pos + s + (8 - s) = 8 * (pos + 1) by omega,
    bitsBE_byte wf,
    show bitsBE a (8 * pos + s) (8 - s) = byteAt a (pos + 0) &&& (0xff >>> s) from by
      rw [show pos + 0 = pos from rfl]
      exact bitsBE_maskedByte wf pos s hs,
    Nat.shiftLeft_eq]

/-! ## Claim C4: ReadInt -/

/-- C4 counterexample: reading 32 bits at bit offset 1 over
`00 00 00 00 80` succeeds and consumes 32 bits but stores 0, while the
32 bits starting at offset 1 have value 1 (the set bit lives in the
fifth byte, which the 4-byte assembly never loads). -/
theorem readInt_claim_false_on_wide_misaligned_read :
    readInt 32 ⟨1, [0, 0, 0, 0, 0x80]⟩ = some (0, ⟨33, [0, 0, 0, 0, 0x80]⟩) ∧
    bitsBE [0, 0, 0, 0, 0x80] 1 32 = 1 := by
  constructor <;> decide

/-- C4 (amended): for `0 ≤ n ≤ 32` with at least `n` bits remaining,
`read_uint` succeeds and consumes exactly `n` bits; the stored value
equals the `n` MSB-first bits whenever additionally
`offset % 8 + n ≤ 32` (in particular whenever `n ≤ 25`); e.g. over
`08 08`, reading 8 bits yields 8 and then reading 6 bits yields 2. -/
theorem readInt_amended :
    (∀ (nbits : Nat) (bs : Bitstream), WfBytes bs.bytes →
      nbits ≤ 32 → (nbits : Int) ≤ remainingBits bs →
      ∃ v, readInt nbits bs = some (v, ⟨bs.offset + nbits, bs.bytes⟩) ∧
        (bs.offset % 8 + nbits ≤ 32 → v = bitsBE bs.bytes bs.offset nbits)) ∧
    readInt 8 ⟨0, [0x08, 0x08]⟩ = some (8, ⟨8, [0x08, 0x08]⟩) ∧
    readInt 6 ⟨8, [0x08, 0x08]⟩ = some (2, ⟨14, [0x08, 0x08]⟩) := by
  refine ⟨?_, by decide, by decide⟩
  intro nbits bs wf h32 hrem
  unfold remainingBits at hrem
  unfold readInt remainingBits
  rw [if_neg (by omega)]
  by_cases hz : nbits = 0
  · subst hz
    rw [if_pos rfl]
    exact ⟨0, rfl, fun _ => rfl⟩
  · rw [if_neg hz]
    dsimp only
    refine ⟨_, rfl, fun hfit => ?_⟩
    split
    · rename_i h24
      rw [readInt_assemble4 wf (bs.offset / 8) (bs.offset % 8) (by omega),
        show 8 * (bs.offset / 8) + bs.offset % 8 = bs.offset by omega,
        show 32 - bs.offset % 8 = nbits + (8 - (bs.offset % 8 + nbits) % 8) % 8 by omega]
      exact bitsBE_shiftRight bs.bytes bs.offset nbits _
    · split
      · rename_i h24 h16
        rw [readInt_assemble3 wf (bs.offset / 8) (bs.offset % 8) (by omega),
          show 8 * (bs.offset / 8) + bs.offset % 8 = bs.offset by omega,
          show 24 - bs.offset % 8 = nbits + (8 - (bs.offset % 8 + nbits) % 8) % 8 by omega]
        exact bitsBE_shiftRight bs.bytes bs.offset nbits _
      · split
        · rename_i h24 h16 h8
          rw [readInt_assemble2 wf (bs.offset / 8) (bs.offset % 8) (by omega),
            show 8 * (bs.offset / 8) + bs.offset % 8 = bs.offset by omega,
            show 16 - bs.offset % 8 = nbits + (8 - (bs.offset % 8 + nbits) % 8) % 8 by omega]
          exact bitsBE_shiftRight bs.bytes bs.offset nbits _
        · rename_i h24 h16 h8
          rw [show byteAt bs.bytes (bs.offset / 8 + 0) &&& (0xff >>> (bs.offset % 8)) =
              bitsBE bs.bytes (8 * (bs.offset / 8) + bs.offset % 8) (8 - bs.offset % 8) from
                (bitsBE_maskedByte wf (bs.offset / 8) (bs.offset % 8) (by omega)).symm,
            show 8 * (bs.offset / 8) + bs.offset % 8 = bs.offset by omega,
            show 8 - bs.offset % 8 = nbits + (8 - (bs.offset % 8 + nbits) % 8) % 8 by omega]
          exact bitsBE_shiftRight bs.bytes bs.offset nbits _

/-- Witness for C4 (amended): the second read of the `08 08` fixture. -/
theorem readInt_amended_witness :
    ∃ v, readInt 6 ⟨8, [0x08, 0x08]⟩ = some (v, ⟨14, [0x08, 0x08]⟩) ∧
      (8 % 8 + 6 ≤ 32 → v = bitsBE [0x08, 0x08] 8 6) :=
  readInt_amended.1 6 ⟨8, [0x08, 0x08]⟩ (by decide) (by decide) (by decide)

/-! ## Claim C3: ReadSmallUnary -/

theorem getD_drop (l : List Nat) (m k : Nat) : (l.drop m).getD k 0 = l.getD (m + k) 0 := by
  simp [List.getD_eq_getElem?_getD, List.getElem?_drop]

theorem bitAt_true_lt {a : List Nat} {i : Nat} (h : bitAt a i = true) : i / 8 < a.length := by
  by_contra hc
  push_neg at hc
  unfold bitAt byteAt at h
  rw [List.getD_eq_default _ _ hc] at h
  rw [Nat.zero_testBit] at h
  cases h

theorem bitsBE_eq_zero_iff {a : List Nat} {i n : Nat} :
    bitsBE a i n = 0 ↔ ∀ j, j < n → bitAt a (i + j) = false := by
  rw [eq_zero_iff_testBit_false]
  constructor
  · intro h j hj
    have := h (n - 1 - j)
    rw [bitsBE_testBit, decide_eq_true (show n - 1 - j < n by omega), Bool.true_and,
      show n - 1 - (n - 1 - j) = j by omega] at this
    exact this
  · intro h u
    rw [bitsBE_testBit]
    rcases Nat.lt_or_ge u n with hu | hu
    · rw [h (n - 1 - u) (by omega), Bool.and_false]
    · rw [decide_eq_false (by omega), Bool.false_and]

theorem beWord64_eq_bitsBE {a : List Nat} (wf : WfBytes a) (pos : Nat) :
    beWord64 a pos = bitsBE a (8 * pos) 64 := by
  rw [show (64 : Nat) = 8 + 56 from rfl, bitsBE_append,
    show 8 * pos + 8 = 8 * (pos + 1) by omega,
    show (56 : Nat) = 8 + 48 from rfl, bitsBE_append,
    show 8 * (pos + 1) + 8 = 8 * (pos + 2) by omega,
    show (48 : Nat) = 8 + 40 from rfl, bitsBE_append,
    show 8 * (pos + 2) + 8 = 8 * (pos + 3) by omega,
    show (40 : Nat) = 8 + 32 from rfl, bitsBE_append,
    show 8 * (pos + 3) + 8 = 8 * (pos + 4) by omega,
    show (32 : Nat) = 8 + 24 from rfl, bitsBE_append,
    show 8 * (pos + 4) + 8 = 8 * (pos + 5) by omega,
    show (24 : Nat) = 8 + 16 from rfl, bitsBE_append,
    show 8 * (pos + 5) + 8 = 8 * (pos + 6) by omega,
    show (16 : Nat) = 8 + 8 from rfl, bitsBE_append,
    show 8 * (pos + 6) + 8 = 8 * (pos + 7) by omega,
    bitsBE_byte wf, bitsBE_byte wf, bitsBE_byte wf, bitsBE_byte wf, bitsBE_byte wf,
    bitsBE_byte wf, bitsBE_byte wf, bitsBE_byte wf]
  unfold beWord64
  ring_nf

/-- Fast-path correctness: when the terminating 1-bit lies within 56
bits of the cursor, the shifted 64-bit window count is exact. -/
theorem readSmallUnary_fast {a : List Nat} (wf : WfBytes a) {off z : Nat}
    (hz : z ≤ 56)
    (h0 : ∀ j, j < z → bitAt a (off + j) = false)
    (h1 : bitAt a (off + z) = true) :
    leadingZerosAux 64 ((beWord64 a (off / 8) <<< (off % 8)) % 2 ^ 64) = z := by
  have hbit : ∀ j, j ≤ 56 →
      ((beWord64 a (off / 8) <<< (off % 8)) % 2 ^ 64).testBit (64 - 1 - j) =
        bitAt a (off + j) := by
    intro j hj
    rw [Nat.testBit_mod_two_pow, Nat.testBit_shiftLeft, beWord64_eq_bitsBE wf,
      bitsBE_testBit, decide_eq_true (show 64 - 1 - j < 64 by omega), Bool.true_and,
      decide_eq_true (show 64 - 1 - j ≥ off % 8 by omega), Bool.true_and,
      decide_eq_true (show 64 - 1 - j - off % 8 < 64 by omega), Bool.true_and,
      show 8 * (off / 8) + (64 - 1 - (64 - 1 - j - off % 8)) = off + j by omega]
  exact leadingZerosAux_eq 64 (by omega)
    (fun j hj => by rw [hbit j (by omega)]; exact h0 j hj)
    (by rw [hbit z hz]; exact h1)

/-- Slow-path first-byte correctness: a 1-bit inside the cursor's byte
is found by `LeadingZeros8` of the masked, shifted byte. -/
theorem readSmallUnary_firstByte {a : List Nat} (wf : WfBytes a) {off z : Nat}
    (hz : z < 8 - off % 8)
    (h0 : ∀ j, j < z → bitAt a (off + j) = false)
    (h1 : bitAt a (off + z) = true) :
    leadingZerosAux 8
      (((byteAt a (off / 8) &&& (0xff >>> (off % 8))) <<< (off % 8)) % 256) = z := by
  have hmb : byteAt a (off / 8) &&& (0xff >>> (off % 8)) =
      bitsBE a (8 * (off / 8) + off % 8) (8 - off % 8) :=
    (bitsBE_maskedByte wf (off / 8) (off % 8) (by omega)).symm
  have hbit : ∀ j, j < 8 - off % 8 →
      (((byteAt a (off / 8) &&& (0xff >>> (off % 8))) <<< (off % 8)) % 256).testBit
        (8 - 1 - j) = bitAt a (off + j) := by
    intro j hj
    rw [hmb, show (256 : Nat) = 2 ^ 8 from rfl, Nat.testBit_mod_two_pow,
      Nat.testBit_shiftLeft, bitsBE_testBit,
      decide_eq_true (show 8 - 1 - j < 8 by omega), Bool.true_and,
      decide_eq_true (show 8 - 1 - j ≥ off % 8 by omega), Bool.true_and,
      decide_eq_true (show 8 - 1 - j - off % 8 < 8 - off % 8 by omega), Bool.true_and,
      show 8 * (off / 8) + off % 8 + (8 - off % 8 - 1 - (8 - 1 - j - off % 8)) = off + j
        by omega]
  exact leadingZerosAux_eq 8 (by omega)
    (fun j hj => by rw [hbit j (by omega)]; exact h0 j hj)
    (by rw [hbit z hz]; exact h1)

theorem smallUnaryLoop_none_iff : ∀ (L : List Nat) (s i : Nat),
    smallUnaryLoop L s i = none ↔ ∀ k, k < L.length → L.getD k 0 = 0 := by
  intro L
  induction L with
  | nil =>
    intro s i
    constructor
    · intro _ k hk
      simp at hk
    · intro _
      rfl
  | cons b rest ih =>
    intro s i
    unfold smallUnaryLoop
    by_cases hb : b ≠ 0
    · rw [if_pos hb]
      constructor
      · intro hc
        cases hc
      · intro h
        exact absurd (h 0 (by simp)) hb
    · rw [if_neg hb]
      push_neg at hb
      rw [ih s (i + 1)]
      constructor
      · intro h k hk
        rcases k with _ | k
        · exact hb
        · exact h k (by simpa using hk)
      · intro h k hk
        have := h (k + 1) (by simpa using hk)
        simpa using this

theorem smallUnaryLoop_some : ∀ (L : List Nat) (s i jz : Nat),
    (∀ j, j < jz → L.getD j 0 = 0) → jz < L.length → L.getD jz 0 ≠ 0 →
    smallUnaryLoop L s i = some (leadingZerosAux 8 (L.getD jz 0) + 8 * (i + jz) - s) := by
  intro L
  induction L with
  | nil =>
    intro s i jz _ hlen _
    simp at hlen
  | cons b rest ih =>
    intro s i jz hpre hlen hnz
    unfold smallUnaryLoop
    rcases jz with _ | jz
    · rw [if_pos (by simpa using hnz)]
      rfl
    · have hb0 : b = 0 := by simpa using hpre 0 (by omega)
      rw [if_neg (by simpa using hb0)]
      rw [show (b :: rest).getD (jz + 1) 0 = rest.getD jz 0 from by simp,
        show i + (jz + 1) = i + 1 + jz by omega]
      exact ih s (i + 1) jz (fun j hj => by simpa using hpre (j + 1) (by omega))
        (by simpa using hlen) (by simpa using hnz)

theorem byte_lz8 {a : List Nat} {k t : Nat} (ht : t < 8)
    (h0 : ∀ u, u < t → bitAt a (8 * k + u) = false)
    (h1 : bitAt a (8 * k + t) = true) :
    leadingZerosAux 8 (byteAt a k) = t := by
  refine leadingZerosAux_eq 8 (by omega) (fun j hj => ?_) ?_
  · rw [show 8 - 1 - j = 7 - j by omega, ← bitAt_byte (show j < 8 by omega)]
    exact h0 j hj
  · rw [show 8 - 1 - t = 7 - t by omega, ← bitAt_byte ht]
    exact h1

theorem byteAt_eq_zero_of_bits {a : List Nat} (wf : WfBytes a) {k : Nat}
    (h : ∀ u, u < 8 → bitAt a (8 * k + u) = false) : byteAt a k = 0 := by
  rw [← bitsBE_byte wf k]
  exact bitsBE_eq_zero_iff.mpr h

theorem byteAt_ne_zero_of_bit {a : List Nat} {k t : Nat} (ht : t < 8)
    (h : bitAt a (8 * k + t) = true) : byteAt a k ≠ 0 := by
  intro hz
  rw [bitAt_byte ht, hz, Nat.zero_testBit] at h
  cases h

theorem maskedByte_eq_zero_iff {a : List Nat} (wf : WfBytes a) (off : Nat) :
    byteAt a (off / 8) &&& (0xff >>> (off % 8)) = 0 ↔
      ∀ j, j < 8 - off % 8 → bitAt a (off + j) = false := by
  rw [← bitsBE_maskedByte wf (off / 8) (off % 8) (by omega), bitsBE_eq_zero_iff]
  constructor
  · intro h j hj
    have := h j hj
    rwa [show 8 * (off / 8) + off % 8 + j = off + j by omega] at this
  · intro h j hj
    rw [show 8 * (off / 8) + off % 8 + j = off + j by omega]
    exact h j hj

/-- Success part of C3 (amended): a terminating 1-bit within 56 bits
(in particular for unary values up to 55) is counted and consumed
exactly. -/
theorem readSmallUnary_success {bs : Bitstream} {z : Nat} (wf : WfBytes bs.bytes)
    (hz : z ≤ 55)
    (h0 : ∀ j, j < z → bitAt bs.bytes (bs.offset + j) = false)
    (h1 : bitAt bs.bytes (bs.offset + z) = true) :
    readSmallUnary bs = .ok z ⟨bs.offset + z + 1, bs.bytes⟩ := by
  obtain ⟨off, a⟩ := bs
  dsimp only at h0 h1 ⊢
  unfold readSmallUnary
  dsimp only
  have hblt : (off + z) / 8 < a.length := bitAt_true_lt h1
  rw [if_neg (show ¬(a.length = off / 8) by omega)]
  by_cases hfast : off / 8 + 8 ≤ a.length
  · rw [if_pos hfast, readSmallUnary_fast wf (by omega) h0 h1]
  · rw [if_neg hfast, if_neg (show ¬(a.length < off / 8) by omega)]
    have hdrop0 : byteAt (a.drop (off / 8)) 0 = byteAt a (off / 8) := by
      unfold byteAt
      rw [getD_drop, Nat.add_zero]
    by_cases hfb : z < 8 - off % 8
    · have hne : byteAt a (off / 8) &&& (0xff >>> (off % 8)) ≠ 0 := by
        intro hzz
        have := (maskedByte_eq_zero_iff wf off).mp hzz z hfb
        rw [h1] at this
        cases this
      rw [hdrop0, if_pos hne, readSmallUnary_firstByte wf hfb h0 h1]
    · push_neg at hfb
      have hmask0 : byteAt a (off / 8) &&& (0xff >>> (off % 8)) = 0 :=
        (maskedByte_eq_zero_iff wf off).mpr (fun j hj => h0 j (by omega))
      rw [hdrop0, if_neg (fun hc => hc hmask0), List.tail_drop]
      have hjz : off / 8 + 1 ≤ (off + z) / 8 := by omega
      have hgd : (a.drop (off / 8 + 1)).getD ((off + z) / 8 - (off / 8 + 1)) 0 =
          byteAt a ((off + z) / 8) := by
        rw [getD_drop]
        unfold byteAt
        congr 1
        omega
      have hpre : ∀ j, j < (off + z) / 8 - (off / 8 + 1) →
          (a.drop (off / 8 + 1)).getD j 0 = 0 := by
        intro j hj
        rw [show (a.drop (off / 8 + 1)).getD j 0 = byteAt a (off / 8 + 1 + j) from
          getD_drop a _ j]
        apply byteAt_eq_zero_of_bits wf
        intro u hu
        have := h0 (8 * (off / 8 + 1 + j) + u - off) (by omega)
        rwa [show off + (8 * (off / 8 + 1 + j) + u - off) = 8 * (off / 8 + 1 + j) + u
          by omega] at this
      have hlen : (off + z) / 8 - (off / 8 + 1) < (a.drop (off / 8 + 1)).length := by
        rw [List.length_drop]
        omega
      have hnz : (a.drop (off / 8 + 1)).getD ((off + z) / 8 - (off / 8 + 1)) 0 ≠ 0 := by
        rw [hgd]
        exact byteAt_ne_zero_of_bit (show (off + z) % 8 < 8 by omega)
          (by rwa [show 8 * ((off + z) / 8) + (off + z) % 8 = off + z by omega])
      have hloop := smallUnaryLoop_some (a.drop (off / 8 + 1)) (off % 8) 1
        ((off + z) / 8 - (off / 8 + 1)) hpre hlen hnz
      have hlz : leadingZerosAux 8 (byteAt a ((off + z) / 8)) = (off + z) % 8 := by
        apply byte_lz8 (show (off + z) % 8 < 8 by omega)
        · intro u hu
          have := h0 (8 * ((off + z) / 8) + u - off) (by omega)
          rwa [show off + (8 * ((off + z) / 8) + u - off) = 8 * ((off + z) / 8) + u by omega]
            at this
        · rwa [show 8 * ((off + z) / 8) + (off + z) % 8 = off + z by omega]
      rw [hgd, hlz] at hloop
      rw [hloop, show (off + z) % 8 + 8 * (1 + ((off + z) / 8 - (off / 8 + 1))) - off % 8 = z
        by omega]

/-- Failure soundness for C3 (amended): when `ReadSmallUnary` reports
failure, no terminating 1-bit existed in the remainder. -/
theorem readSmallUnary_none_sound {bs : Bitstream} (wf : WfBytes bs.bytes)
    (hoff : bs.offset ≤ 8 * bs.bytes.length)
    (h : readSmallUnary bs = .fail) :
    ∀ i, bs.offset ≤ i → i < 8 * bs.bytes.length → bitAt bs.bytes i = false := by
  obtain ⟨off, a⟩ := bs
  dsimp only at hoff h ⊢
  unfold readSmallUnary at h
  dsimp only at h
  by_cases hl0 : a.length = off / 8
  · intro i h1 h2
    omega
  · rw [if_neg hl0] at h
    by_cases hfast : off / 8 + 8 ≤ a.length
    · rw [if_pos hfast] at h
      cases h
    · rw [if_neg hfast, if_neg (show ¬(a.length < off / 8) by omega)] at h
      by_cases hne : byteAt (a.drop (off / 8)) 0 &&& (0xff >>> (off % 8)) ≠ 0
      · rw [if_pos hne] at h
        cases h
      · rw [if_neg hne] at h
        push_neg at hne
        have hdrop0 : byteAt (a.drop (off / 8)) 0 = byteAt a (off / 8) := by
          unfold byteAt
          rw [getD_drop, Nat.add_zero]
        rw [hdrop0] at hne
        rcases hloop : smallUnaryLoop (a.drop (off / 8)).tail (off % 8) 1 with _ | d
        · rw [List.tail_drop] at hloop
          have hbytes := (smallUnaryLoop_none_iff _ _ _).mp hloop
          intro i hi1 hi2
          rcases Nat.lt_or_ge i (8 * (off / 8) + 8) with hfstB | hrest
          · have := (maskedByte_eq_zero_iff wf off).mp hne (i - off) (by omega)
            rwa [show off + (i - off) = i by omega] at this
          · have hk := hbytes (i / 8 - (off / 8 + 1)) (by rw [List.length_drop]; omega)
            rw [getD_drop, show off / 8 + 1 + (i / 8 - (off / 8 + 1)) = i / 8 by omega] at hk
            have hk2 : byteAt a (i / 8) = 0 := hk
            rw [show i = 8 * (i / 8) + i % 8 by omega, bitAt_byte (show i % 8 < 8 by omega),
              hk2, Nat.zero_testBit]
        · rw [hloop] at h
          dsimp only at h
          cases h

/-- Failure completeness for C3 (amended): with the cursor's byte index
still within the buffer and fewer than 8 bytes remaining from it,
`ReadSmallUnary` fails whenever no terminating 1-bit exists. -/
theorem readSmallUnary_none_complete {bs : Bitstream} (wf : WfBytes bs.bytes)
    (hpos : bs.offset / 8 ≤ bs.bytes.length)
    (hshort : bs.bytes.length - bs.offset / 8 < 8)
    (hall : ∀ i, bs.offset ≤ i → i < 8 * bs.bytes.length → bitAt bs.bytes i = false) :
    readSmallUnary bs = .fail := by
  obtain ⟨off, a⟩ := bs
  dsimp only at hpos hshort hall ⊢
  unfold readSmallUnary
  dsimp only
  by_cases hl0 : a.length = off / 8
  · rw [if_pos hl0]
  · rw [if_neg hl0, if_neg (by omega), if_neg (show ¬(a.length < off / 8) by omega)]
    have hdrop0 : byteAt (a.drop (off / 8)) 0 = byteAt a (off / 8) := by
      unfold byteAt
      rw [getD_drop, Nat.add_zero]
    have hmask0 : byteAt a (off / 8) &&& (0xff >>> (off % 8)) = 0 := by
      apply (maskedByte_eq_zero_iff wf off).mpr
      intro j hj
      apply hall <;> omega
    have hln : smallUnaryLoop (a.drop (off / 8 + 1)) (off % 8) 1 = none := by
      apply (smallUnaryLoop_none_iff _ _ _).mpr
      intro k hk
      rw [List.length_drop] at hk
      rw [show (a.drop (off / 8 + 1)).getD k 0 = byteAt a (off / 8 + 1 + k) from
        getD_drop a _ k]
      apply byteAt_eq_zero_of_bits wf
      intro u hu
      apply hall <;> omega
    rw [hdrop0, if_neg (fun hc => hc hmask0), List.tail_drop, hln]

/-- Out-of-range cursor: when the cursor's byte index has run past the
buffer length (reachable through `ReadSmallUnary` itself: the fast path
consumes 65 bits at the buffer's end), the Go code slices `Bytes[pos:]`
out of range — a runtime panic, not a failure return. -/
theorem readSmallUnary_oob {bs : Bitstream} (h : bs.bytes.length < bs.offset / 8) :
    readSmallUnary bs = .oobSlice := by
  unfold readSmallUnary
  dsimp only
  rw [if_neg (by omega), if_neg (by omega), if_pos h]

/-- C3 counterexample: with 8 zero bytes remaining the fast path counts
64 leading zeros in its window and reports success (consuming 65 bits),
even though no terminating 1-bit exists anywhere in the buffer — so
"fails exactly when no terminating 1-bit exists" is false. -/
theorem readSmallUnary_succeeds_without_terminator :
    readSmallUnary ⟨0, [0, 0, 0, 0, 0, 0, 0, 0]⟩ =
      .ok 64 ⟨65, [0, 0, 0, 0, 0, 0, 0, 0]⟩ ∧
    ∀ i, i < 64 → bitAt [0, 0, 0, 0, 0, 0, 0, 0] i = false := by
  constructor
  · decide
  · decide

/-- C3 (amended): `read_short_unary` returns the count of leading zero
bits and consumes them plus the terminating 1-bit whenever that count
is at most 55 (the range the spec supports); if it reports failure, no
terminating 1-bit existed in the remainder; when the cursor's byte
index is within the buffer with fewer than 8 bytes remaining from it,
the call fails exactly when no terminating 1-bit exists; and when the
cursor's byte index has run past the buffer (reachable through the fast
path's 65-bit consumption at the buffer's end) the call crashes on an
out-of-range slice instead of failing.  Over
`00 08 80 00 00 00 00 01 01` four successive calls yield 12, 3, 46, 7
and a fifth call fails. -/
theorem readSmallUnary_amended :
    (∀ (bs : Bitstream) (z : Nat), WfBytes bs.bytes → z ≤ 55 →
      (∀ j, j < z → bitAt bs.bytes (bs.offset + j) = false) →
      bitAt bs.bytes (bs.offset + z) = true →
      readSmallUnary bs = .ok z ⟨bs.offset + z + 1, bs.bytes⟩) ∧
    (∀ bs : Bitstream, WfBytes bs.bytes → bs.offset ≤ 8 * bs.bytes.length →
      readSmallUnary bs = .fail →
      ∀ i, bs.offset ≤ i → i < 8 * bs.bytes.length → bitAt bs.bytes i = false) ∧
    (∀ bs : Bitstream, WfBytes bs.bytes → bs.offset / 8 ≤ bs.bytes.length →
      bs.bytes.length - bs.offset / 8 < 8 →
      (∀ i, bs.offset ≤ i → i < 8 * bs.bytes.length → bitAt bs.bytes i = false) →
      readSmallUnary bs = .fail) ∧
    (∀ bs : Bitstream, bs.bytes.length < bs.offset / 8 →
      readSmallUnary bs = .oobSlice) ∧
    readSmallUnary ⟨0, [0x00, 0x08, 0x80, 0, 0, 0, 0, 1, 1]⟩ =
      .ok 12 ⟨13, [0x00, 0x08, 0x80, 0, 0, 0, 0, 1, 1]⟩ ∧
    readSmallUnary ⟨13, [0x00, 0x08, 0x80, 0, 0, 0, 0, 1, 1]⟩ =
      .ok 3 ⟨17, [0x00, 0x08, 0x80, 0, 0, 0, 0, 1, 1]⟩ ∧
    readSmallUnary ⟨17, [0x00, 0x08, 0x80, 0, 0, 0, 0, 1, 1]⟩ =
      .ok 46 ⟨64, [0x00, 0x08, 0x80, 0, 0, 0, 0, 1, 1]⟩ ∧
    readSmallUnary ⟨64, [0x00, 0x08, 0x80, 0, 0, 0, 0, 1, 1]⟩ =
      .ok 7 ⟨72, [0x00, 0x08, 0x80, 0, 0, 0, 0, 1, 1]⟩ ∧
    readSmallUnary ⟨72, [0x00, 0x08, 0x80, 0, 0, 0, 0, 1, 1]⟩ = .fail :=
  ⟨fun bs z wf hz h0 h1 => readSmallUnary_success wf hz h0 h1,
   fun bs wf hoff h => readSmallUnary_none_sound wf hoff h,
   fun bs wf hpos hshort hall => readSmallUnary_none_complete wf hpos hshort hall,
   fun bs h => readSmallUnary_oob h,
   by decide, by decide, by decide, by decide, by decide⟩

/-- Witness for C3 (amended): the first fixture read, via the general
success statement. -/
theorem readSmallUnary_amended_witness :
    readSmallUnary ⟨0, [0x00, 0x08, 0x80, 0, 0, 0, 0, 1, 1]⟩ =
      .ok 12 ⟨0 + 12 + 1, [0x00, 0x08, 0x80, 0, 0, 0, 0, 1, 1]⟩ :=
  readSmallUnary_amended.1 ⟨0, [0x00, 0x08, 0x80, 0, 0, 0, 0, 1, 1]⟩ 12 (by decide)
    (by decide) (by decide) (by decide)

/-! ## Claim C9: slice tiling -/

theorem halveW_facts (W x : Nat) : ∀ j,
    16 ∣ halveW W x (16 * 2 ^ j) ∧ 16 ≤ halveW W x (16 * 2 ^ j) ∧
      (x + halveW W x (16 * 2 ^ j) ≤ W ∨ halveW W x (16 * 2 ^ j) = 16) := by
  intro j
  induction j with
  | zero =>
    rw [show (16 : Nat) * 2 ^ 0 = 16 from by norm_num, halveW, if_neg (by omega)]
    exact ⟨dvd_refl 16, le_refl 16, Or.inr rfl⟩
  | succ j ih =>
    have h2 : 2 ≤ 2 ^ (j + 1) := by
      calc (2 : Nat) = 2 ^ 1 := rfl
        _ ≤ 2 ^ (j + 1) := Nat.pow_le_pow_right (by omega) (by omega)
    rw [halveW]
    by_cases hc : 16 < 16 * 2 ^ (j + 1) ∧ W < x + 16 * 2 ^ (j + 1)
    · rw [if_pos hc, show 16 * 2 ^ (j + 1) / 2 = 16 * 2 ^ j from by
        rw [Nat.pow_succ]
        omega]
      exact ih
    · rw [if_neg hc]
      push_neg at hc
      refine ⟨dvd_mul_right 16 _, by omega, Or.inl ?_⟩
      have := hc (by omega)
      omega

theorem rowCount_stop {W sw x : Nat} (h : W ≤ x) : rowCount W sw x = 0 := by
  rw [rowCount, if_pos (Or.inl h)]

theorem rowCount_step {W sw x : Nat} (hx : x < W) (hw : halveW W x sw ≠ 0) :
    rowCount W sw x = 1 + rowCount W sw (x + halveW W x sw) := by
  rw [rowCount, if_neg (by push_neg; exact ⟨by omega, hw⟩)]

/-- Region covered by the assignment walk: starting inside a row at
`(x, y)` with `R2` further full rows to place, the rectangles cover the
rest of the current row (up to the macroblock-rounded width) exactly
once, plus `R2` full rows below it, and nothing else. -/
theorem walk_region (W wfac hfac : Nat) (hW : 1 ≤ W) :
    ∀ (m R2 x : Nat), m = R2 * (W + 1) + (W - x) → 16 ∣ x → x < W →
      ∀ (y px py : Nat),
        (sliceWalk W (16 * 2 ^ wfac) (16 * 2 ^ hfac)
            (rowCount W (16 * 2 ^ wfac) x + rowCount W (16 * 2 ^ wfac) 0 * R2) x y).countP
          (fun r => decide (inRect r px py)) =
        if (y ≤ py ∧ py < y + 16 * 2 ^ hfac ∧ x ≤ px ∧ px < 16 * ((W + 15) / 16)) ∨
            (y + 16 * 2 ^ hfac ≤ py ∧
              py < y + 16 * 2 ^ hfac + R2 * (16 * 2 ^ hfac) ∧
              px < 16 * ((W + 15) / 16)) then 1 else 0 := by
  intro m
  induction m using Nat.strong_induction_on with
  | _ m IH =>
    intro R2 x hm hdvd hx y px py
    obtain ⟨h16w, hwge, hwle⟩ := halveW_facts W x wfac
    have hWrge : W ≤ 16 * ((W + 15) / 16) := by omega
    have hWrlt : 16 * ((W + 15) / 16) < W + 16 := by omega
    have hxWr : x + halveW W x (16 * 2 ^ wfac) ≤ 16 * ((W + 15) / 16) := by
      rcases hwle with h | h <;> omega
    have hrc : rowCount W (16 * 2 ^ wfac) x =
        1 + rowCount W (16 * 2 ^ wfac) (x + halveW W x (16 * 2 ^ wfac)) :=
      rowCount_step hx (by omega)
    rw [hrc, show 1 + rowCount W (16 * 2 ^ wfac) (x + halveW W x (16 * 2 ^ wfac)) +
        rowCount W (16 * 2 ^ wfac) 0 * R2 =
        (rowCount W (16 * 2 ^ wfac) (x + halveW W x (16 * 2 ^ wfac)) +
          rowCount W (16 * 2 ^ wfac) 0 * R2) + 1 by omega]
    rw [sliceWalk]
    rw [List.countP_cons]
    by_cases hwrap : W ≤ x + halveW W x (16 * 2 ^ wfac)
    · rw [if_pos hwrap]
      rw [rowCount_stop hwrap, Nat.zero_add]
      have hxw : x + halveW W x (16 * 2 ^ wfac) = 16 * ((W + 15) / 16) := by
        rcases hwle with h | h <;> omega
      rcases R2 with _ | R3
      · rw [Nat.mul_zero]
        rw [show sliceWalk W (16 * 2 ^ wfac) (16 * 2 ^ hfac) 0 0 (y + 16 * 2 ^ hfac) = []
            from rfl,
          List.countP_nil, Nat.zero_add]
        simp only [decide_eq_true_eq, inRect]
        rw [Nat.zero_mul]
        split <;> split <;> omega
      · rw [show rowCount W (16 * 2 ^ wfac) 0 * (R3 + 1) =
          rowCount W (16 * 2 ^ wfac) 0 + rowCount W (16 * 2 ^ wfac) 0 * R3 from by ring]
        have hexp : (R3 + 1) * (W + 1) = R3 * (W + 1) + (W + 1) := by ring
        have hm2 : R3 * (W + 1) + (W - 0) < m := by omega
        rw [IH _ hm2 R3 0 rfl (dvd_zero 16) (by omega) (y + 16 * 2 ^ hfac) px py]
        have hshexp : (R3 + 1) * (16 * 2 ^ hfac) =
            R3 * (16 * 2 ^ hfac) + 16 * 2 ^ hfac := by ring
        simp only [decide_eq_true_eq, inRect]
        split <;> split <;> split <;> omega
    · rw [if_neg hwrap]
      push_neg at hwrap
      have hm2 : R2 * (W + 1) + (W - (x + halveW W x (16 * 2 ^ wfac))) < m := by omega
      rw [IH _ hm2 R2 (x + halveW W x (16 * 2 ^ wfac)) rfl (dvd_add hdvd h16w)
        (by omega) y px py]
      simp only [decide_eq_true_eq, inRect]
      split <;> split <;> split <;> omega

/-- C9: for every frame width `W ≥ 1`, height `Hmb ≥ 1` macroblocks, slice
width factor `wf` and height factor `hf`, with the slice count equal to
the number of tiles (`tilesPerRow · ⌈Hmb / 2^hf⌉`), the rectangles
assigned by `DecodePicture`'s left-to-right top-to-bottom walk — each
`2^hf·16` tall and `2^wf·16` wide, halved while `sliceWidth > 16` and
`x + sliceWidth > W`, `x` advancing by `sliceWidth` and wrapping when
`x ≥ W` — are pairwise disjoint (every pixel is in at most one) and
cover the macroblock-rounded frame exactly once (every pixel with
`px < 16·⌈W/16⌉` and `py < 16·Hmb` is in exactly one). -/
theorem slice_tiling_partition (W Hmb wfac hfac px py : Nat)
    (hW : 1 ≤ W) (hH : 1 ≤ Hmb) :
    (sliceWalk W (16 * 2 ^ wfac) (16 * 2 ^ hfac)
        (rowCount W (16 * 2 ^ wfac) 0 * ((Hmb + 2 ^ hfac - 1) / 2 ^ hfac)) 0 0).countP
      (fun r => decide (inRect r px py)) ≤ 1 ∧
      (px < 16 * ((W + 15) / 16) → py < 16 * Hmb →
        (sliceWalk W (16 * 2 ^ wfac) (16 * 2 ^ hfac)
            (rowCount W (16 * 2 ^ wfac) 0 *
              ((Hmb + 2 ^ hfac - 1) / 2 ^ hfac)) 0 0).countP
          (fun r => decide (inRect r px py)) = 1) := by
  have hp : 1 ≤ 2 ^ hfac := Nat.one_le_two_pow
  obtain ⟨R2, hR2⟩ : ∃ R2, (Hmb + 2 ^ hfac - 1) / 2 ^ hfac = R2 + 1 := by
    refine ⟨(Hmb + 2 ^ hfac - 1) / 2 ^ hfac - 1, ?_⟩
    have h1 : 0 < (Hmb + 2 ^ hfac - 1) / 2 ^ hfac :=
      Nat.div_pos (by omega) (by omega)
    omega
  rw [hR2, show rowCount W (16 * 2 ^ wfac) 0 * (R2 + 1) =
      rowCount W (16 * 2 ^ wfac) 0 + rowCount W (16 * 2 ^ wfac) 0 * R2 from by ring]
  rw [walk_region W wfac hfac hW (R2 * (W + 1) + (W - 0)) R2 0 rfl (dvd_zero 16)
    (by omega) 0 px py]
  have hkey : Hmb ≤ (R2 + 1) * 2 ^ hfac := by
    have hd := Nat.div_add_mod (Hmb + 2 ^ hfac - 1) (2 ^ hfac)
    have hm := Nat.mod_lt (Hmb + 2 ^ hfac - 1) (Nat.two_pow_pos hfac)
    have hc : (R2 + 1) * 2 ^ hfac =
        2 ^ hfac * ((Hmb + 2 ^ hfac - 1) / 2 ^ hfac) := by
      rw [hR2]; ring
    omega
  have hr1 : (R2 + 1) * (16 * 2 ^ hfac) =
      16 * 2 ^ hfac + R2 * (16 * 2 ^ hfac) := by ring
  have hr2 : 16 * ((R2 + 1) * 2 ^ hfac) = (R2 + 1) * (16 * 2 ^ hfac) := by ring
  constructor
  · split <;> omega
  · intro h2 h3
    split <;> omega

theorem slice_tiling_partition_witness :
    (sliceWalk 40 (16 * 2 ^ 1) (16 * 2 ^ 1)
        (rowCount 40 (16 * 2 ^ 1) 0 * ((3 + 2 ^ 1 - 1) / 2 ^ 1)) 0 0).countP
      (fun r => decide (inRect r 20 10)) ≤ 1 ∧
      (20 < 16 * ((40 + 15) / 16) → 10 < 16 * 3 →
        (sliceWalk 40 (16 * 2 ^ 1) (16 * 2 ^ 1)
            (rowCount 40 (16 * 2 ^ 1) 0 * ((3 + 2 ^ 1 - 1) / 2 ^ 1)) 0 0).countP
          (fun r => decide (inRect r 20 10)) = 1) :=
  slice_tiling_partition 40 3 1 1 20 10 (by decide) (by decide)
